import Mathlib

/-!
Verification development for the JSON persistence utility
(`homeassistant/util/json.py`): `load_json`, `save_json`,
`find_paths_unserializable_data` and `format_unserializable_data`.

The Python data the utility manipulates is shallowly embedded as the
inductive type `PyVal`; the CPython `json` library functions the utility
delegates to (`json.dumps`, `json.loads`) are modelled as executable Lean
functions restricted to `PyVal` (JSON numbers are restricted to integers:
finite floating point is outside the scope of this embedding; the float
NaN is kept as the distinguished value `PyVal.nan` because the code's
error handling distinguishes it).  The filesystem is modelled as a map
from path strings to file records (content plus permission bits), and
each OS call that `save_json` performs can be told to fail through a
`Faults` record, which models `OSError` injection.
-/

/-- Kind of error raised by the modelled CPython `json.dumps`:
`TypeError` (unsupported type) or `ValueError` (e.g. NaN under
`allow_nan=False`). -/
inductive DumpErr where
  | typeError
  | valueError
deriving DecidableEq, Repr

/-- Modelled from the spec: the well-known domain types `State` and
`Event` (imported by the source from `homeassistant.core`, which is not
part of the shown material) carry an identifying field — an entity
identifier for a `State`, an event type for an `Event`.  Any other
object is `plain`. -/
inductive ObjKind where
  | plain
  | state (entityId : String)
  | event (eventType : String)
deriving DecidableEq, Repr

/-- Embedding of the Python values the utility can be handed.

* scalars: `str`, `int`, `bool`, `None`, and the float NaN
  (finite floats are outside the embedding);
* containers: `list`, `dict` (entries in insertion order), `set`
  (never JSON-serializable);
* `obj cls kind asDict`: an arbitrary object of class `cls`;
  `asDict = some kvs` models `hasattr(obj, "as_dict")` with
  `obj.as_dict()` returning the mapping `kvs` (modelled from the spec:
  the "to-mapping" capability renders the object as a mapping). -/
inductive PyVal where
  | str (s : String)
  | int (n : Int)
  | bool (b : Bool)
  | none
  | nan
  | list (xs : List PyVal)
  | dict (kvs : List (PyVal × PyVal))
  | set (xs : List PyVal)
  | obj (cls : String) (kind : ObjKind) (asDict : Option (List (PyVal × PyVal)))

/-- Decimal digit to character. -/
def digitChar : Nat → Char
  | 0 => '0' | 1 => '1' | 2 => '2' | 3 => '3' | 4 => '4'
  | 5 => '5' | 6 => '6' | 7 => '7' | 8 => '8' | 9 => '9'
  | _ => '*'

/-- Fuel-indexed decimal rendering of a natural number, most significant
digit first (model of CPython `int.__repr__` for nonnegative values;
the fuel is structural so that the kernel can evaluate it). -/
def natStrAux : Nat → Nat → List Char
  | 0, _ => []
  | fuel + 1, n => if n < 10 then [digitChar n] else natStrAux fuel (n / 10) ++ [digitChar (n % 10)]

/-- Decimal rendering of a natural number. -/
def natStr (n : Nat) : String := String.mk (natStrAux (n + 1) n)

/-- Model of CPython `int.__repr__` / `repr(int)`. -/
def intStr (n : Int) : String :=
  if n < 0 then "-" ++ natStr (-n).toNat else natStr n.toNat

mutual
/-- Model of Python `repr` for the embedded values.  `repr` of a string
is modelled naively as the string between single quotes (Python's
escaping inside `repr` is not modelled; no claim depends on it);
`repr` of an arbitrary object omits the memory address CPython prints
(memory layout is outside the embedding). -/
def pyRepr : PyVal → String
  | .str s => "\x27" ++ s ++ "\x27"
  | .int n => intStr n
  | .bool b => if b then "True" else "False"
  | .none => "None"
  | .nan => "nan"
  | .list xs => "[" ++ pyReprJoin xs ++ "]"
  | .dict kvs => "\x7b" ++ pyReprEntries kvs ++ "\x7d"
  | .set [] => "set()"
  | .set (x :: xs) => "\x7b" ++ pyReprJoin (x :: xs) ++ "\x7d"
  | .obj cls _ _ => "<" ++ cls ++ " object>"

def pyReprJoin : List PyVal → String
  | [] => ""
  | [x] => pyRepr x
  | x :: y :: tl => pyRepr x ++ ", " ++ pyReprJoin (y :: tl)

def pyReprEntries : List (PyVal × PyVal) → String
  | [] => ""
  | [(k, v)] => pyRepr k ++ ": " ++ pyRepr v
  | (k, v) :: e :: tl => pyRepr k ++ ": " ++ pyRepr v ++ ", " ++ pyReprEntries (e :: tl)
end

/-- Model of Python `str(x)` (used by the source's f-strings). -/
def pyStr : PyVal → String
  | .str s => s
  | v => pyRepr v

/-- Model of Python `str(type(x))`, e.g. `<class 'set'>`. -/
def typeStr : PyVal → String
  | .str _ => "<class \x27str\x27>"
  | .int _ => "<class \x27int\x27>"
  | .bool _ => "<class \x27bool\x27>"
  | .none => "<class \x27NoneType\x27>"
  | .nan => "<class \x27float\x27>"
  | .list _ => "<class \x27list\x27>"
  | .dict _ => "<class \x27dict\x27>"
  | .set _ => "<class \x27set\x27>"
  | .obj cls _ _ => "<class \x27" ++ cls ++ "\x27>"

/-- Hexadecimal digit to (lowercase) character, as CPython's
`'\\u%04x'` formatting produces. -/
def hexDigitChar : Nat → Char
  | 0 => '0' | 1 => '1' | 2 => '2' | 3 => '3' | 4 => '4'
  | 5 => '5' | 6 => '6' | 7 => '7' | 8 => '8' | 9 => '9'
  | 10 => 'a' | 11 => 'b' | 12 => 'c' | 13 => 'd' | 14 => 'e' | 15 => 'f'
  | _ => '*'

/-- Four-digit lowercase hexadecimal rendering (for `\uXXXX` escapes). -/
def hex4 (n : Nat) : List Char :=
  [hexDigitChar (n / 4096 % 16), hexDigitChar (n / 256 % 16),
   hexDigitChar (n / 16 % 16), hexDigitChar (n % 16)]

/-- Model of CPython json's `ensure_ascii=True` escaping of one character
(`py_encode_basestring_ascii`): quote and backslash get a backslash
escape, the named control characters use their short escapes, other
characters outside `0x20..0x7e` become `\uXXXX` (a surrogate pair above
`0xffff`), and printable ASCII passes through. -/
def escapeChar (c : Char) : List Char :=
  if c = '"' then ['\\', '"']
  else if c = '\\' then ['\\', '\\']
  else if c = '\x08' then ['\\', 'b']
  else if c = '\x09' then ['\\', 't']
  else if c = '\x0a' then ['\\', 'n']
  else if c = '\x0c' then ['\\', 'f']
  else if c = '\x0d' then ['\\', 'r']
  else if 0x20 ≤ c.toNat ∧ c.toNat ≤ 0x7e then [c]
  else if c.toNat < 0x10000 then '\\' :: 'u' :: hex4 c.toNat
  else
    '\\' :: 'u' :: hex4 (0xd800 + (c.toNat - 0x10000) / 0x400) ++
      '\\' :: 'u' :: hex4 (0xdc00 + (c.toNat - 0x10000) % 0x400)

/-- `ensure_ascii` escaping of a character sequence. -/
def escChars : List Char → List Char
  | [] => []
  | c :: tl => escapeChar c ++ escChars tl

/-- Model of the string conversion CPython json applies to `dict` keys
(`str` keys are used as-is; `int`, `float`, `bool` and `None` keys are
converted to their JSON scalar text; every other key raises
`TypeError: keys must be str, int, float, bool or None`; a NaN float key
raises `ValueError` when `allow_nan` is false). -/
def keyStr (allowNan : Bool) : PyVal → Except DumpErr String
  | .str s => .ok s
  | .int n => .ok (intStr n)
  | .bool b => .ok (if b then "true" else "false")
  | .none => .ok "null"
  | .nan => if allowNan then .ok "NaN" else .error .valueError
  | _ => .error .typeError

/-- The newline-plus-indentation CPython json emits before an item when
an `indent` is given (nothing when `indent=None`). -/
def newlineInd : Option Nat → Nat → List Char
  | Option.none, _ => []
  | some w, lvl => '\n' :: List.replicate (w * lvl) ' '

/-- The separator CPython json emits between container items:
`", "` when `indent=None`, else `","` followed by a newline and the
current indentation. -/
def itemSep : Option Nat → Nat → List Char
  | Option.none, _ => ',' :: [' ']
  | some w, lvl => ',' :: '\n' :: List.replicate (w * lvl) ' '

mutual
/-- Model of CPython `json.dumps` (with `ensure_ascii=True`,
`sort_keys=False`, default separators) restricted to `PyVal`, producing
the encoded character list or the raised error.  `an` is `allow_nan`,
`ind` is the `indent` argument, `lvl` the current nesting level.
`set`s and arbitrary objects raise `TypeError` (the default encoder
knows nothing of `as_dict`). -/
def dumpsCh (an : Bool) (ind : Option Nat) : Nat → PyVal → Except DumpErr (List Char)
  | _, .str s => .ok ('"' :: (escChars s.data ++ ['"']))
  | _, .int n => .ok (intStr n).data
  | _, .bool b => .ok (if b then "true".data else "false".data)
  | _, .none => .ok "null".data
  | _, .nan => if an then .ok "NaN".data else .error .valueError
  | _, .list [] => .ok "[]".data
  | lvl, .list (x :: xs) => do
      let items ← dumpsItems an ind (lvl + 1) (x :: xs)
      .ok ('[' :: (newlineInd ind (lvl + 1) ++ items ++ newlineInd ind lvl ++ [']']))
  | _, .dict [] => .ok "\x7b\x7d".data
  | lvl, .dict (e :: tl) => do
      let items ← dumpsEntries an ind (lvl + 1) (e :: tl)
      .ok ('\x7b' :: (newlineInd ind (lvl + 1) ++ items ++ newlineInd ind lvl ++ ['\x7d']))
  | _, .set _ => .error .typeError
  | _, .obj _ _ _ => .error .typeError

def dumpsItems (an : Bool) (ind : Option Nat) : Nat → List PyVal → Except DumpErr (List Char)
  | _, [] => .ok []
  | lvl, [x] => dumpsCh an ind lvl x
  | lvl, x :: y :: tl => do
      let cx ← dumpsCh an ind lvl x
      let rest ← dumpsItems an ind lvl (y :: tl)
      .ok (cx ++ itemSep ind lvl ++ rest)

def dumpsEntries (an : Bool) (ind : Option Nat) : Nat → List (PyVal × PyVal) → Except DumpErr (List Char)
  | _, [] => .ok []
  | lvl, [(k, v)] => do
      let ks ← keyStr an k
      let cv ← dumpsCh an ind lvl v
      .ok ('"' :: (escChars ks.data ++ '"' :: ':' :: ' ' :: cv))
  | lvl, (k, v) :: e :: tl => do
      let ks ← keyStr an k
      let cv ← dumpsCh an ind lvl v
      let rest ← dumpsEntries an ind lvl (e :: tl)
      .ok ('"' :: (escChars ks.data ++ '"' :: ':' :: ' ' :: cv) ++ itemSep ind lvl ++ rest)
end

/-- Model of plain `json.dumps(obj)` — the default `dump` used by
`find_paths_unserializable_data`. -/
def jsonDumps (v : PyVal) : Except DumpErr String :=
  (dumpsCh true Option.none 0 v).map String.mk

/-- Model of `json.dumps(data, indent=4)` — the serialization
`save_json` performs (with its default `encoder=None`). -/
def jsonDumpsIndent4 (v : PyVal) : Except DumpErr String :=
  (dumpsCh true (some 4) 0 v).map String.mk

/-- Model of `partial(json.dumps, allow_nan=False)` — a strict dump a
caller can hand to `find_paths_unserializable_data`. -/
def jsonDumpsStrict (v : PyVal) : Except DumpErr String :=
  (dumpsCh false Option.none 0 v).map String.mk

/-- The whitespace characters CPython's json decoder skips
(`WHITESPACE = ' \t\n\r'`). -/
def isJsonWS (c : Char) : Bool :=
  c = ' ' || c = '\x09' || c = '\x0a' || c = '\x0d'

/-- Skip json whitespace. -/
def skipWS : List Char → List Char
  | [] => []
  | c :: tl => if isJsonWS c then skipWS tl else c :: tl

/-- ASCII decimal digit test. -/
def isDigitC (c : Char) : Bool :=
  48 ≤ c.toNat && c.toNat ≤ 57

/-- Greedily consume decimal digits, accumulating their value. -/
def parseDigits : Nat → List Char → Nat × List Char
  | acc, [] => (acc, [])
  | acc, c :: rest =>
    if isDigitC c then parseDigits (acc * 10 + (c.toNat - 48)) rest else (acc, c :: rest)

/-- Parse a JSON natural-number literal.  Mirrors CPython's
`NUMBER_RE`: a literal starting with `0` is just `0` (a following digit
is left in the remainder, where the surrounding grammar rejects it). -/
def parseNat : List Char → Option (Nat × List Char)
  | [] => Option.none
  | c :: rest =>
    if c = '0' then some (0, rest)
    else if isDigitC c then some (parseDigits (c.toNat - 48) rest)
    else Option.none

/-- The single-character string escapes CPython's json decoder accepts
(its `BACKSLASH` table). -/
def unescapeChar (c : Char) : Option Char :=
  if c = '"' then some '"'
  else if c = '\\' then some '\\'
  else if c = '/' then some '/'
  else if c = 'b' then some '\x08'
  else if c = 'f' then some '\x0c'
  else if c = 'n' then some '\x0a'
  else if c = 'r' then some '\x0d'
  else if c = 't' then some '\x09'
  else Option.none

/-- Hexadecimal digit value (both cases, as `int(s, 16)` accepts). -/
def hexVal (c : Char) : Option Nat :=
  if 48 ≤ c.toNat ∧ c.toNat ≤ 57 then some (c.toNat - 48)
  else if 65 ≤ c.toNat ∧ c.toNat ≤ 70 then some (c.toNat - 55)
  else if 97 ≤ c.toNat ∧ c.toNat ≤ 102 then some (c.toNat - 87)
  else Option.none

/-- Value of four hexadecimal digit characters (as `int(s, 16)` reads a
`\uXXXX` escape). -/
def hexQuad (h1 h2 h3 h4 : Char) : Option Nat := do
  let a ← hexVal h1
  let b ← hexVal h2
  let c ← hexVal h3
  let d ← hexVal h4
  some (((a * 16 + b) * 16 + c) * 16 + d)

mutual
/-- Model of CPython json's strict string scanner (`py_scanstring`):
reads the body of a string literal after the opening quote, handling
backslash escapes, `\uXXXX` escapes and surrogate pairs, and rejecting
raw control characters.  A lone surrogate (which CPython keeps as an
unpaired surrogate code unit in the Python string) has no Lean `Char`
counterpart and is rejected — the encoder side never produces one for a
well-formed string.  `acc` holds the already-read characters reversed. -/
def parseStringBody : List Char → List Char → Option (String × List Char)
  | _, [] => Option.none
  | acc, c :: rest =>
    if c = '"' then some (String.mk acc.reverse, rest)
    else if c = '\\' then parseStringEsc acc rest
    else if c.toNat < 0x20 then Option.none
    else parseStringBody (c :: acc) rest
termination_by _ cs => cs.length

/-- Escape handling after a backslash: a `u` starts a `\uXXXX` escape,
any other character is looked up in the single-character escape table. -/
def parseStringEsc : List Char → List Char → Option (String × List Char)
  | _, [] => Option.none
  | acc, e :: rest2 =>
    if e = 'u' then parseStringU acc rest2
    else
      match unescapeChar e with
      | some c2 => parseStringBody (c2 :: acc) rest2
      | Option.none => Option.none
termination_by _ cs => cs.length

/-- `\uXXXX` handling after the `u`: four hex digits; a high surrogate
must be followed by a paired low surrogate escape, a lone low surrogate
is rejected (see `parseStringBody`), and any other code continues the
scan. -/
def parseStringU : List Char → List Char → Option (String × List Char)
  | acc, h1 :: h2 :: h3 :: h4 :: rest3 =>
    (match hexQuad h1 h2 h3 h4 with
     | some code =>
       if 0xd800 ≤ code ∧ code ≤ 0xdbff then parseStringPair code acc rest3
       else if 0xdc00 ≤ code ∧ code ≤ 0xdfff then Option.none
       else parseStringBody (Char.ofNat code :: acc) rest3
     | Option.none => Option.none)
  | _, _ => Option.none
termination_by _ cs => cs.length

/-- Surrogate-pair completion after a high surrogate `code`: expects a
`\uXXXX` escape holding a low surrogate and combines the two. -/
def parseStringPair (code : Nat) : List Char → List Char → Option (String × List Char)
  | acc, b1 :: u1 :: g1 :: g2 :: g3 :: g4 :: rest4 =>
    if b1 = '\\' ∧ u1 = 'u' then
      (match hexQuad g1 g2 g3 g4 with
       | some code2 =>
         if 0xdc00 ≤ code2 ∧ code2 ≤ 0xdfff then
           parseStringBody
             (Char.ofNat (0x10000 + (code - 0xd800) * 0x400 + (code2 - 0xdc00)) :: acc) rest4
         else Option.none
       | Option.none => Option.none)
    else Option.none
  | _, _ => Option.none
termination_by _ cs => cs.length
end

/-- Insertion of a parsed object member, mirroring how a Python `dict`
built from parsed pairs treats a duplicate key: the value at the first
occurrence's position is replaced, otherwise the pair is appended. -/
def dictInsert : List (PyVal × PyVal) → String → PyVal → List (PyVal × PyVal)
  | [], k, v => [(.str k, v)]
  | (k0, v0) :: tl, k, v =>
    match k0 with
    | .str s => if s = k then (.str s, v) :: tl else (.str s, v0) :: dictInsert tl k v
    | _ => (k0, v0) :: dictInsert tl k v

/-- Match a literal keyword: returns the remainder when the input
starts with the given characters. -/
def matchLit : List Char → List Char → Option (List Char)
  | [], rest => some rest
  | l :: ls, c :: rest => if c = l then matchLit ls rest else Option.none
  | _ :: _, [] => Option.none

mutual
/-- Model of CPython `json.loads`'s scanner restricted to the embedded
value type: recursive-descent parse of one JSON value starting at a
non-whitespace position, returning the value and the remainder.  The
number grammar is restricted to integers (floats, `NaN` and
`Infinity` literals are outside the embedding).  The structural `fuel`
argument dominates the recursion depth; every recursive call consumes
at least one input character, so any fuel of at least the input length
plus one is enough. -/
def parseVal : Nat → List Char → Option (PyVal × List Char)
  | 0, _ => Option.none
  | fuel + 1, cs =>
    match cs with
    | [] => Option.none
    | c :: rest =>
      if c = '"' then (parseStringBody [] rest).map (fun p => (.str p.1, p.2))
      else if c = '\x7b' then parseObjBody fuel (skipWS rest)
      else if c = '[' then parseArrBody fuel (skipWS rest)
      else if c = 't' then (matchLit ['r', 'u', 'e'] rest).map (fun r2 => (.bool true, r2))
      else if c = 'f' then (matchLit ['a', 'l', 's', 'e'] rest).map (fun r2 => (.bool false, r2))
      else if c = 'n' then (matchLit ['u', 'l', 'l'] rest).map (fun r2 => (.none, r2))
      else if c = '-' then (parseNat rest).map (fun p => (.int (-(p.1 : Int)), p.2))
      else (parseNat (c :: rest)).map (fun p => (.int (p.1 : Int), p.2))
termination_by fuel _ => (fuel, 0)

/-- Object body after the opening brace and whitespace: an immediate
closing brace is the empty mapping, anything else starts the members. -/
def parseObjBody : Nat → List Char → Option (PyVal × List Char)
  | _, [] => Option.none
  | fuel, d :: r2 =>
    if d = '\x7d' then some (.dict [], r2)
    else parseMembers fuel [] (d :: r2)
termination_by fuel _ => (fuel, 3)

/-- Array body after the opening bracket and whitespace: an immediate
closing bracket is the empty list, anything else starts the elements. -/
def parseArrBody : Nat → List Char → Option (PyVal × List Char)
  | _, [] => Option.none
  | fuel, d :: r2 =>
    if d = ']' then some (.list [], r2)
    else parseElems fuel [] (d :: r2)
termination_by fuel _ => (fuel, 3)

/-- Parse the members of a JSON object (at a key position, whitespace
already skipped), `acc` holding the members parsed so far. -/
def parseMembers : Nat → List (PyVal × PyVal) → List Char → Option (PyVal × List Char)
  | 0, _, _ => Option.none
  | fuel + 1, acc, cs =>
    match cs with
    | [] => Option.none
    | c :: rest =>
      if c = '"' then
        match parseStringBody [] rest with
        | some (k, r1) => parseMemberSep fuel acc k (skipWS r1)
        | Option.none => Option.none
      else Option.none
termination_by fuel _ _ => (fuel, 1)

/-- After an object key: expects the colon, then parses the value and
inserts the pair as a Python `dict` would. -/
def parseMemberSep (fuel : Nat) (acc : List (PyVal × PyVal)) (k : String) :
    List Char → Option (PyVal × List Char)
  | [] => Option.none
  | d :: r2 =>
    if d = ':' then
      match parseVal fuel (skipWS r2) with
      | some (v, r3) => parseMemberNext fuel (dictInsert acc k v) (skipWS r3)
      | Option.none => Option.none
    else Option.none
termination_by cs => (fuel, 3)

/-- After an object member: a comma continues with the next member, a
closing brace finishes the object. -/
def parseMemberNext (fuel : Nat) (acc : List (PyVal × PyVal)) :
    List Char → Option (PyVal × List Char)
  | [] => Option.none
  | d2 :: r4 =>
    if d2 = ',' then parseMembers fuel acc (skipWS r4)
    else if d2 = '\x7d' then some (.dict acc, r4)
    else Option.none
termination_by cs => (fuel, 2)

/-- Parse the elements of a JSON array (at an element position,
whitespace already skipped), `acc` holding the parsed elements
reversed. -/
def parseElems : Nat → List PyVal → List Char → Option (PyVal × List Char)
  | 0, _, _ => Option.none
  | fuel + 1, acc, cs =>
    match parseVal fuel cs with
    | some (v, r1) => parseElemNext fuel (v :: acc) (skipWS r1)
    | Option.none => Option.none
termination_by fuel _ _ => (fuel, 1)

/-- After an array element: a comma continues with the next element, a
closing bracket finishes the array. -/
def parseElemNext (fuel : Nat) (acc : List PyVal) : List Char → Option (PyVal × List Char)
  | [] => Option.none
  | d :: r2 =>
    if d = ',' then parseElems fuel acc (skipWS r2)
    else if d = ']' then some (.list acc.reverse, r2)
    else Option.none
termination_by cs => (fuel, 2)
end

/-- Model of CPython `json.loads`: skip leading whitespace, parse one
value, and reject any trailing non-whitespace (`Extra data`).  `none`
models a raised `ValueError` (`json.JSONDecodeError`). -/
def jsonLoads (s : String) : Option PyVal :=
  match parseVal (s.data.length + 1) (skipWS s.data) with
  | some (v, rest) => if skipWS rest = [] then some v else Option.none
  | Option.none => Option.none

mutual
/-- Node count of an embedded value, used as the termination measure of
the diagnoser's work queue (an object exposing `as_dict` counts one
more than its rendered mapping, so the in-place substitution strictly
shrinks the measure). -/
def psize : PyVal → Nat
  | .str _ => 1
  | .int _ => 1
  | .bool _ => 1
  | .none => 1
  | .nan => 1
  | .list xs => 1 + psizeItems xs
  | .dict kvs => 1 + psizeEntries kvs
  | .set xs => 1 + psizeItems xs
  | .obj _ _ Option.none => 1
  | .obj _ _ (some kvs) => 2 + psizeEntries kvs

def psizeItems : List PyVal → Nat
  | [] => 0
  | x :: tl => psize x + psizeItems tl

def psizeEntries : List (PyVal × PyVal) → Nat
  | [] => 0
  | (k, v) :: tl => psize k + psize v + psizeEntries tl
end

/-- Total node count of a diagnoser work queue. -/
def qsize : List (PyVal × String) → Nat
  | [] => 0
  | (v, _) :: tl => psize v + qsize tl

/-- The descriptive label the diagnoser appends for an object exposing
`as_dict`: the class name, plus `": <entity_id>"` for a `State` and
`": <event_type>"` for an `Event` (source lines 117–121). -/
def objDesc (cls : String) : ObjKind → String
  | .plain => cls
  | .state eid => cls ++ ": " ++ eid
  | .event et => cls ++ ": " ++ et

/-- The `as_dict` substitution step of the diagnoser (source lines
116–124): an object exposing `as_dict` is replaced by its rendered
mapping and the path is annotated with the parenthesized label; any
other value passes through unchanged. -/
def convertAsDict : PyVal → String → PyVal × String
  | .obj cls kind (some kvs), path => (.dict kvs, path ++ "(" ++ objDesc cls kind ++ ")")
  | v, path => (v, path)

/-- The per-key loop the diagnoser runs on a failed mapping node
(source lines 126–135): each key is probed in isolation by dumping
`{key: None}`; on `TypeError` the key is recorded under the synthetic
`<key: k>` path; on success the value is enqueued at `path + "." + key`;
a `ValueError` from the probe is not caught and aborts the whole
traversal.  Returns (items to enqueue, report entries), in loop order. -/
def processDictKeys (dump : PyVal → Except DumpErr String) (objPath : String) :
    List (PyVal × PyVal) → Except DumpErr (List (PyVal × String) × List (String × PyVal))
  | [] => .ok ([], [])
  | (key, value) :: tl =>
    match dump (.dict [(key, .none)]) with
    | .ok _ =>
      match processDictKeys dump objPath tl with
      | .ok (enq, inv) => .ok ((value, objPath ++ "." ++ pyStr key) :: enq, inv)
      | .error e => .error e
    | .error .typeError =>
      match processDictKeys dump objPath tl with
      | .ok (enq, inv) => .ok (enq, (objPath ++ "<key: " ++ pyStr key ++ ">", key) :: inv)
      | .error e => .error e
    | .error .valueError => .error .valueError

/-- The per-element enqueue the diagnoser runs on a failed sequence node
(source lines 136–138): each element is enqueued at `path + "[idx]"`. -/
def enumItems (objPath : String) : Nat → List PyVal → List (PyVal × String)
  | _, [] => []
  | i, x :: tl => (x, objPath ++ "[" ++ natStr i ++ "]") :: enumItems objPath (i + 1) tl

theorem psize_pos (v : PyVal) : 1 ≤ psize v := by
  cases v with
  | obj cls kind asDict => cases asDict <;> simp [psize] <;> omega
  | _ => simp [psize]

theorem qsize_append (a b : List (PyVal × String)) :
    qsize (a ++ b) = qsize a + qsize b := by
  induction a with
  | nil => simp [qsize]
  | cons hd tl ih => cases hd; simp [qsize, ih]; omega

theorem qsize_enumItems (objPath : String) (i : Nat) (xs : List PyVal) :
    qsize (enumItems objPath i xs) = psizeItems xs := by
  induction xs generalizing i with
  | nil => simp [enumItems, qsize, psizeItems]
  | cons hd tl ih => simp [enumItems, qsize, psizeItems, ih]

theorem qsize_processDictKeys (dump : PyVal → Except DumpErr String) (objPath : String)
    (kvs : List (PyVal × PyVal)) (enq : List (PyVal × String)) (inv : List (String × PyVal))
    (h : processDictKeys dump objPath kvs = .ok (enq, inv)) :
    qsize enq ≤ psizeEntries kvs := by
  induction kvs generalizing enq inv with
  | nil =>
    simp [processDictKeys] at h
    simp [h.1, qsize, psizeEntries]
  | cons hd tl ih =>
    obtain ⟨key, value⟩ := hd
    simp only [processDictKeys] at h
    cases hp : dump (.dict [(key, .none)]) with
    | ok s =>
      rw [hp] at h
      cases hr : processDictKeys dump objPath tl with
      | ok p =>
        obtain ⟨enq', inv'⟩ := p
        rw [hr] at h
        simp at h
        obtain ⟨he, _⟩ := h
        subst he
        have := ih enq' inv' hr
        simp [qsize, psizeEntries]
        have := psize_pos key
        omega
      | error e => rw [hr] at h; simp at h
    | error e =>
      cases e with
      | typeError =>
        rw [hp] at h
        cases hr : processDictKeys dump objPath tl with
        | ok p =>
          obtain ⟨enq', inv'⟩ := p
          rw [hr] at h
          simp at h
          obtain ⟨he, _⟩ := h
          subst he
          have := ih enq' inv' hr
          simp [psizeEntries]
          omega
        | error e' => rw [hr] at h; simp at h
      | valueError => rw [hp] at h; simp at h

theorem convertAsDict_dict (v : PyVal) (p : String) (kvs : List (PyVal × PyVal)) (q : String)
    (h : convertAsDict v p = (.dict kvs, q)) : psizeEntries kvs < psize v := by
  cases v with
  | dict kvs0 => simp [convertAsDict] at h; simp [h.1, psize]
  | obj cls kind asDict =>
    cases asDict with
    | none => simp [convertAsDict] at h
    | some kvs0 => simp [convertAsDict] at h; simp [h.1, psize]
  | _ => simp [convertAsDict] at h

theorem convertAsDict_list (v : PyVal) (p : String) (xs : List PyVal) (q : String)
    (h : convertAsDict v p = (.list xs, q)) : psizeItems xs < psize v := by
  cases v with
  | list xs0 => simp [convertAsDict] at h; simp [h.1, psize]
  | obj cls kind asDict => cases asDict <;> simp [convertAsDict] at h
  | _ => simp [convertAsDict] at h

/-- The main loop of `find_paths_unserializable_data` (source lines
106–142): pop `(obj, obj_path)` from the FIFO work queue; if `dump obj`
succeeds the node and its subtree are skipped; otherwise the `as_dict`
substitution is applied in place, then a mapping has its keys probed
and values enqueued, a sequence has its elements enqueued, and any
other value is recorded in the report at its path.  An uncaught
`ValueError` from a key probe aborts the traversal (`.error`). -/
def findLoop (dump : PyVal → Except DumpErr String) :
    List (PyVal × String) → List (String × PyVal) → Except DumpErr (List (String × PyVal))
  | [], invalid => .ok invalid
  | (obj0, path0) :: rest, invalid =>
    match dump obj0 with
    | .ok _ => findLoop dump rest invalid
    | .error _ =>
      match hc : convertAsDict obj0 path0 with
      | (.dict kvs, objPath) =>
        match hk : processDictKeys dump objPath kvs with
        | .ok (enq, newInv) => findLoop dump (rest ++ enq) (invalid ++ newInv)
        | .error e => .error e
      | (.list xs, objPath) => findLoop dump (rest ++ enumItems objPath 0 xs) invalid
      | (o, objPath) => findLoop dump rest (invalid ++ [(objPath, o)])
termination_by q _ => qsize q
decreasing_by
  · simp [qsize]; have := psize_pos obj0; omega
  · have h1 := qsize_processDictKeys dump objPath kvs enq newInv hk
    have h2 := convertAsDict_dict obj0 path0 kvs objPath hc
    simp [qsize, qsize_append]; omega
  · have h2 := convertAsDict_list obj0 path0 xs objPath hc
    simp [qsize, qsize_append, qsize_enumItems]; omega
  · simp [qsize]; have := psize_pos obj0; omega

/-- Model of `find_paths_unserializable_data(bad_data, dump=dump)`
(source lines 96–142): run the work-queue loop seeded with
`(bad_data, "$")` and an empty report. -/
def find_paths_unserializable_data (dump : PyVal → Except DumpErr String) (bad_data : PyVal) :
    Except DumpErr (List (String × PyVal)) :=
  findLoop dump [(bad_data, "$")] []

/-- Model of `format_unserializable_data` (source lines 88–93): each
report entry is rendered as `path=value(type` — the f-string in the
source does not close the parenthesis after the type — and the entries
are joined with `", "`. -/
def format_unserializable_data (data : List (String × PyVal)) : String :=
  String.intercalate ", " (data.map (fun pv => pv.1 ++ "=" ++ pyStr pv.2 ++ "(" ++ typeStr pv.2))

/-- A file's observable state: its content and its permission bits. -/
structure FileRec where
  content : String
  mode : Nat
deriving DecidableEq

/-- The filesystem: a map from path to file record (absent = `none`). -/
structure FS where
  files : String → Option FileRec

/-- Create or overwrite a file. -/
def FS.setFile (fs : FS) (p : String) (r : FileRec) : FS :=
  ⟨fun q => if q = p then some r else fs.files q⟩

/-- Remove a file. -/
def FS.delFile (fs : FS) (p : String) : FS :=
  ⟨fun q => if q = p then Option.none else fs.files q⟩

/-- Model of `os.replace(src, dst)`: atomically rename `src` onto
`dst`, carrying content and permission bits. -/
def fsReplace (fs : FS) (src dst : String) : FS :=
  match fs.files src with
  | some r => (fs.delFile src).setFile dst r
  | Option.none => fs

/-- Fault injection for the OS calls `save_json` performs, in program
order: temp-file creation, `write` (inside the `with` block, before
`fdesc.name` is captured), the close/flush at `with`-exit, `os.chmod`,
`os.replace`, and the `os.remove` in the `finally` cleanup. -/
structure Faults where
  failCreate : Bool
  failWrite : Bool
  failClose : Bool
  failChmod : Bool
  failReplace : Bool
  failRemove : Bool

/-- The errors `save_json` can surface: `SerializationError` with its
message, `WriteError`, or an exception type the source does not catch
(a `ValueError` escaping `json.dumps` or the diagnoser). -/
inductive SaveErr where
  | serialization (msg : String)
  | write
  | uncaught (e : DumpErr)
deriving DecidableEq

/-- The `finally` cleanup of `save_json` (source lines 78–85): if a file
still exists at `tmpFilename`, remove it; a failure of the removal is
logged and suppressed. -/
def cleanupTmp (faults : Faults) (tmpFilename : String) (fs : FS) : FS :=
  if (fs.files tmpFilename).isSome then
    (if faults.failRemove then fs else fs.delFile tmpFilename)
  else fs

/-- Model of `save_json(filename, data, private, encoder=...)`
(source lines 45–85) as a state transformer on the filesystem.

* `enc` models `json.dumps(data, indent=4, cls=encoder)`;
* `tmp` is the fresh name `tempfile.NamedTemporaryFile` picks
  (created with mode `0o600`);
* only a `TypeError` from the encoder is converted to
  `SerializationError` (with the diagnoser's message, built with the
  default `json.dumps`); a `ValueError` propagates uncaught;
* any injected `OSError` becomes `WriteError`, and the `finally` block
  removes the temp file if one still exists under the captured name
  (the name is `""` when `write` failed before `fdesc.name` was read). -/
def save_json (enc : PyVal → Except DumpErr String) (tmp : String) (faults : Faults)
    (fs : FS) (filename : String) (data : PyVal) (priv : Bool) :
    Except SaveErr Unit × FS :=
  match enc data with
  | .error .valueError => (.error (.uncaught .valueError), fs)
  | .error .typeError =>
    (match find_paths_unserializable_data jsonDumps data with
     | .error e => (.error (.uncaught e), fs)
     | .ok report =>
       (.error (.serialization ("Failed to serialize to JSON: " ++ filename ++
         ". Bad data at " ++ format_unserializable_data report)), fs))
  | .ok json_data =>
    if faults.failCreate then (.error .write, fs)
    else
      let fs1 := fs.setFile tmp ⟨"", 0o600⟩
      if faults.failWrite then (.error .write, cleanupTmp faults "" fs1)
      else
        let fs2 := fs1.setFile tmp ⟨json_data, 0o600⟩
        if faults.failClose then (.error .write, cleanupTmp faults tmp fs2)
        else
          if priv then
            if faults.failReplace then (.error .write, cleanupTmp faults tmp fs2)
            else (.ok (), cleanupTmp faults tmp (fsReplace fs2 tmp filename))
          else
            if faults.failChmod then (.error .write, cleanupTmp faults tmp fs2)
            else
              let fs3 := fs2.setFile tmp ⟨json_data, 0o644⟩
              if faults.failReplace then (.error .write, cleanupTmp faults tmp fs3)
              else (.ok (), cleanupTmp faults tmp (fsReplace fs3 tmp filename))

/-- The two typed failures of `load_json`: the source raises
`HomeAssistantError(error)` from two distinct handlers, one wrapping
the `ValueError` of `json.loads` (the spec's `ParseError`) and one
wrapping an `OSError` of the read (the spec's `ReadError`). -/
inductive LoadErr where
  | parseError
  | readError
deriving DecidableEq

/-- Model of `load_json(filename, default)` (source lines 25–42):
a missing file returns `default` (an empty mapping when the caller
supplied none) without failure; `readFault` injects an `OSError` on a
present file; invalid JSON content fails with the parse error. -/
def load_json (readFault : Bool) (fs : FS) (filename : String) (default : Option PyVal) :
    Except LoadErr PyVal :=
  match fs.files filename with
  | Option.none => .ok (match default with | Option.none => .dict [] | some d => d)
  | some r =>
    if readFault then .error .readError
    else
      match jsonLoads r.content with
      | some v => .ok v
      | Option.none => .error .parseError

/-- Fuel-bounded mirror of `findLoop`, used to bound the number of loop
iterations: `none` means the fuel ran out before the loop finished. -/
def findLoopFuel (dump : PyVal → Except DumpErr String) :
    Nat → List (PyVal × String) → List (String × PyVal) →
    Option (Except DumpErr (List (String × PyVal)))
  | _, [], invalid => some (.ok invalid)
  | 0, _ :: _, _ => Option.none
  | fuel + 1, (obj0, path0) :: rest, invalid =>
    match dump obj0 with
    | .ok _ => findLoopFuel dump fuel rest invalid
    | .error _ =>
      match convertAsDict obj0 path0 with
      | (.dict kvs, objPath) =>
        (match processDictKeys dump objPath kvs with
         | .ok (enq, newInv) => findLoopFuel dump fuel (rest ++ enq) (invalid ++ newInv)
         | .error e => some (.error e))
      | (.list xs, objPath) => findLoopFuel dump fuel (rest ++ enumItems objPath 0 xs) invalid
      | (o, objPath) => findLoopFuel dump fuel rest (invalid ++ [(objPath, o)])

/-- The concrete partially-bad structure of the spec's diagnostic
example: `{"a": [1, set(), {"b": object()}]}`. -/
def exampleBadData : PyVal :=
  .dict [(.str "a", .list [.int 1, .set [], .dict [(.str "b", .obj "object" .plain Option.none)]])]

/-- The message `save_json` builds for `{"a": set()}`. -/
def exampleBadMsg : String :=
  "Failed to serialize to JSON: config.json. Bad data at $.a=set()(<class \x27set\x27>"

/-- No fault injected: every OS call succeeds. -/
def noFaults : Faults := ⟨false, false, false, false, false, false⟩

/-- The empty filesystem. -/
def emptyFS : FS := ⟨fun _ => Option.none⟩

/-- C4: `save_json("config.json", {"a": set()})` fails with a
`SerializationError` whose message renders the report entry as
`$.a=set()(<class 'set'>` — the closing parenthesis the claim (and the
source's own docstring, `<path>=<value>(<type>)`) requires after the
type is missing, because the f-string in `format_unserializable_data`
never emits it. -/
theorem save_json_serialization_message_unclosed_paren :
    (save_json jsonDumpsIndent4 "tmpfile" noFaults emptyFS "config.json"
        (.dict [(.str "a", .set [])]) false).1 = .error (.serialization exampleBadMsg)
    ∧ format_unserializable_data [("$.a", .set [])] = "$.a=set()(<class \x27set\x27>"
    ∧ format_unserializable_data [("$.a", .set [])] ≠ "$.a=set()(<class \x27set\x27>)" := by
  refine ⟨?_, by rfl, by decide⟩
  simp [save_json, jsonDumpsIndent4, jsonDumps, dumpsCh, dumpsEntries, keyStr, Except.map,
    Except.bind, bind, pure, find_paths_unserializable_data, findLoop, processDictKeys,
    convertAsDict, format_unserializable_data, pyStr, pyRepr, typeStr, escChars, escapeChar,
    exampleBadMsg, noFaults, emptyFS]
  rfl

/-- C10: the per-key probe of the diagnoser catches only `TypeError`.
With a strict dump (`allow_nan=False`) and the mapping
`{float('nan'): set()}`, the node-level probe fails with `ValueError`
(which the node-level handler catches, lines 109–113), but the isolated
key probe `dump({nan: None})` also raises `ValueError`, which the
per-key handler (line 131, `except TypeError`) does not catch, so
`find_paths_unserializable_data` itself raises `ValueError`. -/
theorem find_paths_key_probe_valueError_escapes :
    jsonDumpsStrict (.dict [(.nan, .set [])]) = .error .valueError
    ∧ jsonDumpsStrict (.dict [(.nan, .none)]) = .error .valueError
    ∧ find_paths_unserializable_data jsonDumpsStrict (.dict [(.nan, .set [])]) =
        .error .valueError := by
  refine ⟨?_, ?_, ?_⟩ <;>
    simp [find_paths_unserializable_data, findLoop, processDictKeys, convertAsDict,
      jsonDumpsStrict, dumpsCh, dumpsEntries, keyStr, Except.map, Except.bind, bind, pure]

/-- C5: a node whose isolated dump succeeds contributes nothing to the
report — the loop skips it and never descends into it (first conjunct,
at the level of the work-queue loop) — and on the spec's example
`{"a": [1, set(), {"b": object()}]}` the report's entries are exactly
`$.a[1]` and `$.a[2].b`, with the good sibling `$.a[0]` absent (second
conjunct). -/
theorem find_paths_skips_serializable_nodes :
    (∀ (dump : PyVal → Except DumpErr String) (q : List (PyVal × String))
        (inv : List (String × PyVal)) (v : PyVal) (p s : String),
        dump v = .ok s → findLoop dump ((v, p) :: q) inv = findLoop dump q inv)
    ∧ find_paths_unserializable_data jsonDumps exampleBadData =
        .ok [("$.a[1]", .set []), ("$.a[2].b", .obj "object" .plain Option.none)] := by
  constructor
  · intro dump q inv v p s h
    rw [findLoop, h]
  · simp [find_paths_unserializable_data, exampleBadData, findLoop, processDictKeys,
      convertAsDict, jsonDumps, dumpsCh, dumpsEntries, dumpsItems, keyStr, Except.map,
      Except.bind, bind, pure, enumItems, escChars, escapeChar, intStr, natStr, natStrAux,
      digitChar, pyStr, pyRepr, itemSep, newlineInd]

/-- Witness for C5's first conjunct at a concrete serializable node. -/
theorem find_paths_skips_serializable_nodes_witness :
    findLoop jsonDumps [(.int 1, "$"), (.set [], "$x")] [] =
      findLoop jsonDumps [(.set [], "$x")] [] :=
  find_paths_skips_serializable_nodes.1 jsonDumps [(.set [], "$x")] [] (.int 1) "$" "1"
    (by simp [jsonDumps, dumpsCh, Except.map, intStr, natStr, natStrAux, digitChar])

/-- C3: complete case analysis of `load_json`.  The four conjuncts
cover every configuration exactly once, so the call fails iff the file
exists and either cannot be read (then with the error wrapping the
`OSError`, the spec's `ReadError`) or holds invalid JSON (then with the
error wrapping the decode `ValueError`, the spec's `ParseError`);
a missing file returns `default` — the empty mapping when the caller
supplied none — and never a failure. -/
theorem load_json_error_classification (readFault : Bool) (fs : FS) (filename : String)
    (dflt : Option PyVal) :
    (fs.files filename = Option.none →
      load_json readFault fs filename dflt = .ok (dflt.getD (.dict [])))
    ∧ (∀ r, fs.files filename = some r → readFault = true →
      load_json readFault fs filename dflt = .error .readError)
    ∧ (∀ r, fs.files filename = some r → readFault = false →
      jsonLoads r.content = Option.none →
      load_json readFault fs filename dflt = .error .parseError)
    ∧ (∀ r v, fs.files filename = some r → readFault = false →
      jsonLoads r.content = some v →
      load_json readFault fs filename dflt = .ok v) := by
  refine ⟨fun h => ?_, fun r h hf => ?_, fun r h hf hp => ?_, fun r v h hf hp => ?_⟩
  · cases dflt <;> simp [load_json, h, Option.getD]
  · simp [load_json, h, hf]
  · simp [load_json, h, hf, hp]
  · simp [load_json, h, hf, hp]

/-- Witness for C3 at concrete filesystems: a missing file yields the
caller's default, a read fault yields the read error, corrupt content
yields the parse error, and `[]` content loads as the empty list. -/
theorem load_json_error_classification_witness :
    load_json false emptyFS "missing.json" (some (.dict [(.str "x", .int 1)])) =
      .ok (.dict [(.str "x", .int 1)])
    ∧ load_json true (emptyFS.setFile "f.json" ⟨"[]", 0o644⟩) "f.json" Option.none =
      .error .readError
    ∧ load_json false (emptyFS.setFile "f.json" ⟨"\x7bnot json", 0o644⟩) "f.json" Option.none =
      .error .parseError
    ∧ load_json false (emptyFS.setFile "f.json" ⟨"[]", 0o644⟩) "f.json" Option.none =
      .ok (.list []) := by
  refine ⟨(load_json_error_classification false emptyFS "missing.json" _).1 (by rfl),
    (load_json_error_classification true _ "f.json" Option.none).2.1 _ (by rfl) rfl,
    (load_json_error_classification false _ "f.json" Option.none).2.2.1 _ (by rfl) rfl (by
      simp [jsonLoads, skipWS, parseVal, parseObjBody, parseMembers, isJsonWS]),
    (load_json_error_classification false _ "f.json" Option.none).2.2.2 _ _ (by rfl) rfl (by
      simp [jsonLoads, skipWS, parseVal, parseArrBody, isJsonWS])⟩

/-- Under the default dump (`json.dumps`, `allow_nan=True`) the isolated
key probe `dump({key: None})` can fail only with `TypeError`, never
`ValueError`: every convertible key kind succeeds (NaN becomes `"NaN"`)
and every other kind raises `TypeError`. -/
theorem keyProbe_ne_valueError (k : PyVal) :
    jsonDumps (.dict [(k, .none)]) ≠ .error .valueError := by
  cases k <;>
    simp [jsonDumps, dumpsCh, dumpsEntries, keyStr, Except.map, Except.bind, bind, pure]

/-- Under the default dump the per-key loop of the diagnoser never
aborts: it returns the enqueued `(value, path.key)` pairs for the keys
whose isolated probe succeeds and the `<key: k>` report entries for the
keys whose probe fails, in loop order. -/
theorem processDictKeys_jsonDumps (objPath : String) (kvs : List (PyVal × PyVal)) :
    processDictKeys jsonDumps objPath kvs =
      .ok (kvs.filterMap (fun kv =>
             match jsonDumps (.dict [(kv.1, .none)]) with
             | .ok _ => some (kv.2, objPath ++ "." ++ pyStr kv.1)
             | .error _ => Option.none),
           kvs.filterMap (fun kv =>
             match jsonDumps (.dict [(kv.1, .none)]) with
             | .ok _ => Option.none
             | .error _ => some (objPath ++ "<key: " ++ pyStr kv.1 ++ ">", kv.1))) := by
  induction kvs with
  | nil => simp [processDictKeys]
  | cons hd tl ih =>
    obtain ⟨key, value⟩ := hd
    have hne := keyProbe_ne_valueError key
    cases hp : jsonDumps (.dict [(key, .none)]) with
    | ok s => simp [processDictKeys, hp, ih]
    | error e =>
      cases e with
      | typeError => simp [processDictKeys, hp, ih]
      | valueError => exact absurd hp hne

/-- The dict step of the loop, for any dump whose per-key loop
returns: processing a failed mapping node appends the per-key enqueues
to the work queue and the per-key records to the report. -/
theorem findLoop_dict_step (dump : PyVal → Except DumpErr String)
    (kvs : List (PyVal × PyVal)) (path : String) (rest : List (PyVal × String))
    (inv : List (String × PyVal)) (e : DumpErr) (enq : List (PyVal × String))
    (newInv : List (String × PyVal)) (h : dump (.dict kvs) = .error e)
    (hk : processDictKeys dump path kvs = .ok (enq, newInv)) :
    findLoop dump ((.dict kvs, path) :: rest) inv =
      findLoop dump (rest ++ enq) (inv ++ newInv) := by
  rw [findLoop, h]
  simp only [convertAsDict]
  split
  · next enq2 newInv2 heq =>
    rw [hk] at heq
    simp only [Except.ok.injEq, Prod.mk.injEq] at heq
    rw [heq.1, heq.2]
  · next e2 heq => rw [hk] at heq; exact absurd heq (by simp)

/-- C6: when the diagnoser (with its default dump) visits a mapping
node that fails to encode, each key is tested in isolation by encoding
`{key: null}`: a key whose test fails is recorded under the synthetic
path `<path><key: k>` and its value is not traversed (it is absent from
the enqueued items); a key whose test succeeds has its value enqueued
at `path + "." + key`. -/
theorem find_paths_dict_key_handling (kvs : List (PyVal × PyVal)) (path : String)
    (rest : List (PyVal × String)) (inv : List (String × PyVal)) (e : DumpErr)
    (h : jsonDumps (.dict kvs) = .error e) :
    findLoop jsonDumps ((.dict kvs, path) :: rest) inv =
      findLoop jsonDumps
        (rest ++ kvs.filterMap (fun kv =>
           match jsonDumps (.dict [(kv.1, .none)]) with
           | .ok _ => some (kv.2, path ++ "." ++ pyStr kv.1)
           | .error _ => Option.none))
        (inv ++ kvs.filterMap (fun kv =>
           match jsonDumps (.dict [(kv.1, .none)]) with
           | .ok _ => Option.none
           | .error _ => some (path ++ "<key: " ++ pyStr kv.1 ++ ">", kv.1))) :=
  findLoop_dict_step jsonDumps kvs path rest inv e _ _ h (processDictKeys_jsonDumps path kvs)

/-- Witness for C6 at the mapping `{"a": set(), 1: 2, (): 3}`: the good
keys `"a"` and `1` have their values enqueued at `$.a` and `$.1`, the
tuple-like bad key (a frozen list stands in for it) is recorded under
`$<key: []>`. -/
theorem find_paths_dict_key_handling_witness :
    findLoop jsonDumps
        [(.dict [(.str "a", .set []), (.int 1, .int 2), (.list [], .int 3)], "$")] [] =
      findLoop jsonDumps
        [(.set [], "$.a"), (.int 2, "$.1")] [("$<key: []>", .list [])] := by
  have h := find_paths_dict_key_handling
    [(.str "a", .set []), (.int 1, .int 2), (.list [], .int 3)] "$" [] [] .typeError
    (by simp [jsonDumps, dumpsCh, dumpsEntries, dumpsItems, keyStr, Except.map, Except.bind,
          bind, pure])
  rw [h]
  simp [jsonDumps, dumpsCh, dumpsEntries, dumpsItems, keyStr, Except.map, Except.bind, bind,
    pure, pyStr, pyRepr, pyReprJoin, intStr, natStr, natStrAux, digitChar, escChars, escapeChar]


/-- A node whose isolated dump succeeds is popped and skipped: the loop
continues on the rest of the queue with the report unchanged. -/
theorem findLoop_ok_step (dump : PyVal → Except DumpErr String) (v : PyVal) (p : String)
    (q : List (PyVal × String)) (inv : List (String × PyVal)) (s : String)
    (h : dump v = .ok s) :
    findLoop dump ((v, p) :: q) inv = findLoop dump q inv := by
  rw [findLoop, h]

/-- Evaluation of one loop iteration on a failing node whose (possibly
`as_dict`-substituted) form is a mapping. -/
theorem findLoop_cons_dict (dump : PyVal → Except DumpErr String) (obj0 : PyVal)
    (path0 : String) (rest : List (PyVal × String)) (inv : List (String × PyVal)) (e : DumpErr)
    (kvs : List (PyVal × PyVal)) (objPath : String)
    (h : dump obj0 = .error e) (hcv : convertAsDict obj0 path0 = (.dict kvs, objPath)) :
    findLoop dump ((obj0, path0) :: rest) inv =
      (match processDictKeys dump objPath kvs with
       | .ok (enq, newInv) => findLoop dump (rest ++ enq) (inv ++ newInv)
       | .error e2 => .error e2) := by
  rw [findLoop, h]
  dsimp only
  split
  · next kvs2 objPath2 heq =>
    rw [hcv] at heq
    simp only [Prod.mk.injEq, PyVal.dict.injEq] at heq
    obtain ⟨h1, h2⟩ := heq
    subst h1
    subst h2
    split
    · next enq2 newInv2 heq2 => rw [heq2]
    · next e2 heq2 => rw [heq2]
  · next xs objPath2 heq =>
    rw [hcv] at heq
    simp at heq
  · next o objPath2 hno1 hno2 heq =>
    rw [hcv] at heq
    simp only [Prod.mk.injEq] at heq
    exact (hno1 kvs heq.1.symm).elim

/-- Evaluation of one loop iteration on a failing sequence node. -/
theorem findLoop_cons_list (dump : PyVal → Except DumpErr String) (obj0 : PyVal)
    (path0 : String) (rest : List (PyVal × String)) (inv : List (String × PyVal)) (e : DumpErr)
    (xs : List PyVal) (objPath : String)
    (h : dump obj0 = .error e) (hcv : convertAsDict obj0 path0 = (.list xs, objPath)) :
    findLoop dump ((obj0, path0) :: rest) inv =
      findLoop dump (rest ++ enumItems objPath 0 xs) inv := by
  rw [findLoop, h]
  dsimp only
  split
  · next kvs2 objPath2 heq =>
    rw [hcv] at heq
    simp at heq
  · next xs2 objPath2 heq =>
    rw [hcv] at heq
    simp only [Prod.mk.injEq, PyVal.list.injEq] at heq
    rw [heq.1, heq.2]
  · next o objPath2 hno1 hno2 heq =>
    rw [hcv] at heq
    simp only [Prod.mk.injEq] at heq
    exact (hno2 xs heq.1.symm).elim

/-- Evaluation of one loop iteration on a failing node that is neither
a mapping nor a sequence after substitution: it is recorded in the
report at its path. -/
theorem findLoop_cons_leaf (dump : PyVal → Except DumpErr String) (obj0 : PyVal)
    (path0 : String) (rest : List (PyVal × String)) (inv : List (String × PyVal)) (e : DumpErr)
    (o : PyVal) (objPath : String)
    (h : dump obj0 = .error e) (hcv : convertAsDict obj0 path0 = (o, objPath))
    (hnd : ∀ kvs, o ≠ .dict kvs) (hnl : ∀ xs, o ≠ .list xs) :
    findLoop dump ((obj0, path0) :: rest) inv =
      findLoop dump rest (inv ++ [(objPath, o)]) := by
  rw [findLoop, h]
  dsimp only
  split
  · next kvs2 objPath2 heq =>
    rw [hcv] at heq
    simp only [Prod.mk.injEq] at heq
    exact (hnd kvs2 heq.1).elim
  · next xs2 objPath2 heq =>
    rw [hcv] at heq
    simp only [Prod.mk.injEq] at heq
    exact (hnl xs2 heq.1).elim
  · next o2 objPath2 hno1 hno2 heq =>
    rw [hcv] at heq
    simp only [Prod.mk.injEq] at heq
    rw [heq.1, heq.2]

/-- Every report entry the per-key loop produces is keyed by the
synthetic path `<objPath><key: k>` for some key `k` of the mapping. -/
theorem processDictKeys_inv_shape (dump : PyVal → Except DumpErr String) (objPath : String)
    (kvs : List (PyVal × PyVal)) (enq : List (PyVal × String)) (inv : List (String × PyVal))
    (h : processDictKeys dump objPath kvs = .ok (enq, inv)) :
    ∀ s v, (s, v) ∈ inv → ∃ k, s = objPath ++ "<key: " ++ pyStr k ++ ">" := by
  induction kvs generalizing enq inv with
  | nil =>
    simp only [processDictKeys, Except.ok.injEq, Prod.mk.injEq] at h
    obtain ⟨h1, h2⟩ := h
    subst h2
    intro s v hm
    exact absurd hm (List.not_mem_nil _)
  | cons hd tl ih =>
    obtain ⟨key, value⟩ := hd
    simp only [processDictKeys] at h
    cases hp : dump (.dict [(key, .none)]) with
    | ok s0 =>
      rw [hp] at h
      cases hr : processDictKeys dump objPath tl with
      | ok p =>
        obtain ⟨enq2, inv2⟩ := p
        rw [hr] at h
        simp only [Except.ok.injEq, Prod.mk.injEq] at h
        intro s v hm
        rw [← h.2] at hm
        exact ih enq2 inv2 hr s v hm
      | error e0 => rw [hr] at h; simp at h
    | error e0 =>
      cases e0 with
      | typeError =>
        rw [hp] at h
        cases hr : processDictKeys dump objPath tl with
        | ok p =>
          obtain ⟨enq2, inv2⟩ := p
          rw [hr] at h
          simp only [Except.ok.injEq, Prod.mk.injEq] at h
          intro s v hm
          rw [← h.2] at hm
          rcases List.mem_cons.mp hm with hm1 | hm2
          · refine ⟨key, ?_⟩
            simp only [Prod.mk.injEq] at hm1
            exact hm1.1
          · exact ih enq2 inv2 hr s v hm2
        | error e1 => rw [hr] at h; simp at h
      | valueError => rw [hp] at h; simp at h

/-- C7: when the loop pops a node that fails to encode and exposes
`as_dict`, the node is rendered to its mapping form and processed as a
mapping at the same path annotated with the parenthesized descriptive
label (`objDesc`: the class name, augmented with the entity identifier
for a `State` or the event type for an `Event`), and the step records
no leaf failure at the original path: every report entry it adds is
keyed by an annotated synthetic path different from `path`. -/
theorem find_paths_as_dict_substitution (dump : PyVal → Except DumpErr String)
    (cls : String) (kind : ObjKind) (kvs : List (PyVal × PyVal)) (path : String)
    (rest : List (PyVal × String)) (inv : List (String × PyVal)) (e : DumpErr)
    (h : dump (.obj cls kind (some kvs)) = .error e) :
    (findLoop dump ((.obj cls kind (some kvs), path) :: rest) inv =
      (match processDictKeys dump (path ++ "(" ++ objDesc cls kind ++ ")") kvs with
       | .ok (enq, newInv) => findLoop dump (rest ++ enq) (inv ++ newInv)
       | .error e2 => .error e2))
    ∧ (∀ enq newInv,
        processDictKeys dump (path ++ "(" ++ objDesc cls kind ++ ")") kvs = .ok (enq, newInv) →
        ∀ s v, (s, v) ∈ newInv → s ≠ path) := by
  constructor
  · exact findLoop_cons_dict dump _ path rest inv e kvs _ h (by simp [convertAsDict])
  · intro enq newInv hk s v hm
    obtain ⟨k, hs⟩ := processDictKeys_inv_shape dump _ kvs enq newInv hk s v hm
    intro hcon
    rw [hcon] at hs
    have hlen := congrArg String.length hs
    have e1 : ("(" : String).length = 1 := rfl
    have e2 : (")" : String).length = 1 := rfl
    have e3 : ("<key: " : String).length = 6 := rfl
    have e4 : (">" : String).length = 1 := rfl
    simp only [String.length_append, e1, e2, e3, e4] at hlen
    omega

/-- Witness for C7: a plain object whose `as_dict` renders to
`{"x": set()}` fails to dump, is substituted by its mapping at the
annotated path `$(Thing)`, and the loop continues from there. -/
theorem find_paths_as_dict_substitution_witness :
    findLoop jsonDumps [(.obj "Thing" .plain (some [(.str "x", .set [])]), "$")] [] =
      (match processDictKeys jsonDumps ("$" ++ "(" ++ objDesc "Thing" .plain ++ ")")
          [(.str "x", .set [])] with
       | .ok (enq, newInv) => findLoop jsonDumps ([] ++ enq) ([] ++ newInv)
       | .error e2 => .error e2) :=
  (find_paths_as_dict_substitution jsonDumps "Thing" .plain [(.str "x", .set [])]
    "$" [] [] .typeError (by simp [jsonDumps, dumpsCh, Except.map])).1

/-- The fuel-bounded loop completes and agrees with the loop whenever
the fuel is at least the node count of the queue: each iteration
strictly consumes at least one unit of the measure. -/
theorem findLoopFuel_complete (dump : PyVal → Except DumpErr String) :
    ∀ (fuel : Nat) (q : List (PyVal × String)) (inv : List (String × PyVal)),
      qsize q ≤ fuel → findLoopFuel dump fuel q inv = some (findLoop dump q inv) := by
  intro fuel
  induction fuel with
  | zero =>
    intro q inv h
    cases q with
    | nil => rw [findLoopFuel, findLoop]
    | cons hd tl =>
      obtain ⟨v, p⟩ := hd
      exfalso
      have := psize_pos v
      simp only [qsize] at h
      omega
  | succ f ihf =>
    intro q inv h
    cases q with
    | nil => rw [findLoopFuel, findLoop]
    | cons hd tl =>
      obtain ⟨obj0, path0⟩ := hd
      have hpos := psize_pos obj0
      simp only [qsize] at h
      cases hd0 : dump obj0 with
      | ok s =>
        rw [findLoop_ok_step dump obj0 path0 tl inv s hd0, findLoopFuel, hd0]
        exact ihf tl inv (by omega)
      | error e0 =>
        cases obj0 with
        | str s =>
          rw [findLoop_cons_leaf dump _ path0 tl inv e0 (.str s) path0 hd0
            (by simp [convertAsDict]) (by simp) (by simp)]
          rw [findLoopFuel, hd0]
          simp only [convertAsDict]
          exact ihf tl _ (by simp only [psize] at h; omega)
        | int n =>
          rw [findLoop_cons_leaf dump _ path0 tl inv e0 (.int n) path0 hd0
            (by simp [convertAsDict]) (by simp) (by simp)]
          rw [findLoopFuel, hd0]
          simp only [convertAsDict]
          exact ihf tl _ (by simp only [psize] at h; omega)
        | bool b =>
          rw [findLoop_cons_leaf dump _ path0 tl inv e0 (.bool b) path0 hd0
            (by simp [convertAsDict]) (by simp) (by simp)]
          rw [findLoopFuel, hd0]
          simp only [convertAsDict]
          exact ihf tl _ (by simp only [psize] at h; omega)
        | none =>
          rw [findLoop_cons_leaf dump _ path0 tl inv e0 .none path0 hd0
            (by simp [convertAsDict]) (by simp) (by simp)]
          rw [findLoopFuel, hd0]
          simp only [convertAsDict]
          exact ihf tl _ (by simp only [psize] at h; omega)
        | nan =>
          rw [findLoop_cons_leaf dump _ path0 tl inv e0 .nan path0 hd0
            (by simp [convertAsDict]) (by simp) (by simp)]
          rw [findLoopFuel, hd0]
          simp only [convertAsDict]
          exact ihf tl _ (by simp only [psize] at h; omega)
        | set xs =>
          rw [findLoop_cons_leaf dump _ path0 tl inv e0 (.set xs) path0 hd0
            (by simp [convertAsDict]) (by simp) (by simp)]
          rw [findLoopFuel, hd0]
          simp only [convertAsDict]
          exact ihf tl _ (by simp only [psize] at h; omega)
        | list xs =>
          rw [findLoop_cons_list dump _ path0 tl inv e0 xs path0 hd0 (by simp [convertAsDict])]
          rw [findLoopFuel, hd0]
          simp only [convertAsDict]
          refine ihf _ inv ?_
          rw [qsize_append, qsize_enumItems]
          simp only [psize] at h
          omega
        | dict kvs =>
          rw [findLoop_cons_dict dump _ path0 tl inv e0 kvs path0 hd0 (by simp [convertAsDict])]
          rw [findLoopFuel, hd0]
          simp only [convertAsDict]
          cases hk2 : processDictKeys dump path0 kvs with
          | ok pr =>
            obtain ⟨enq, newInv⟩ := pr
            have hq := qsize_processDictKeys dump path0 kvs enq newInv hk2
            simp only [hk2]
            refine ihf (tl ++ enq) (inv ++ newInv) ?_
            rw [qsize_append]
            simp only [psize] at h
            omega
          | error e2 => simp only [hk2]
        | obj cls kind asDict =>
          cases asDict with
          | none =>
            rw [findLoop_cons_leaf dump _ path0 tl inv e0 (.obj cls kind Option.none) path0 hd0
              (by simp [convertAsDict]) (by simp) (by simp)]
            rw [findLoopFuel, hd0]
            simp only [convertAsDict]
            exact ihf tl _ (by simp only [psize] at h; omega)
          | some kvs =>
            rw [findLoop_cons_dict dump _ path0 tl inv e0 kvs
              (path0 ++ "(" ++ objDesc cls kind ++ ")") hd0 (by simp [convertAsDict])]
            rw [findLoopFuel, hd0]
            simp only [convertAsDict]
            cases hk2 : processDictKeys dump (path0 ++ "(" ++ objDesc cls kind ++ ")") kvs with
            | ok pr =>
              obtain ⟨enq, newInv⟩ := pr
              have hq := qsize_processDictKeys dump _ kvs enq newInv hk2
              simp only [hk2]
              refine ihf (tl ++ enq) (inv ++ newInv) ?_
              rw [qsize_append]
              simp only [psize] at h
              omega
            | error e2 => simp only [hk2]

/-- C9: for every (finite, acyclic by construction) input value the
diagnoser's traversal terminates, within a number of loop iterations
bounded by the node count of the input: the fuel-bounded mirror of the
loop, given `psize v` iterations of fuel, completes and agrees with
`find_paths_unserializable_data` — so each node is dequeued and probed
at most once and the queue's total measure never grows. -/
theorem find_paths_terminates_within_node_count (dump : PyVal → Except DumpErr String)
    (v : PyVal) :
    findLoopFuel dump (psize v) [(v, "$")] [] =
      some (find_paths_unserializable_data dump v) := by
  rw [find_paths_unserializable_data]
  exact findLoopFuel_complete dump (psize v) [(v, "$")] [] (by simp [qsize])

theorem FS.files_setFile (fs : FS) (t : String) (r : FileRec) (p : String) :
    (fs.setFile t r).files p = if p = t then some r else fs.files p := rfl

theorem FS.files_delFile (fs : FS) (t : String) (p : String) :
    (fs.delFile t).files p = if p = t then Option.none else fs.files p := rfl

/-- The cleanup step never touches any path other than the captured
temp-file name. -/
theorem cleanupTmp_files_other (faults : Faults) (t : String) (fs : FS) (p : String)
    (hp : p ≠ t) : (cleanupTmp faults t fs).files p = fs.files p := by
  unfold cleanupTmp
  split
  · split
    · rfl
    · simp [FS.files_delFile, hp]
  · rfl

/-- On any failure of `save_json`, the target file is unchanged —
content, permissions and existence alike. -/
theorem save_json_err_files (enc : PyVal → Except DumpErr String) (tmp : String)
    (faults : Faults) (fs : FS) (filename : String) (data : PyVal) (priv : Bool)
    (htf : tmp ≠ filename) (hfe : filename ≠ "") :
    ∀ e, (save_json enc tmp faults fs filename data priv).1 = .error e →
      ((save_json enc tmp faults fs filename data priv).2).files filename = fs.files filename := by
  obtain ⟨fc, fw, fcl, fch, fr, frm⟩ := faults
  intro e he
  cases hd : enc data with
  | error de =>
    cases de with
    | typeError =>
      cases hf : find_paths_unserializable_data jsonDumps data <;> simp [save_json, hd, hf]
    | valueError => simp [save_json, hd]
  | ok jd =>
    cases fc <;> cases fw <;> cases fcl <;> cases priv <;> cases fch <;> cases fr <;> cases frm <;>
      simp_all [save_json, hd, cleanupTmp_files_other, FS.files_setFile, FS.files_delFile,
        fsReplace, htf, hfe, Ne.symm htf]

/-- On success of `save_json`, the target file holds exactly the
serializer's output, with mode `0o600` for a private save and `0o644`
otherwise. -/
theorem save_json_ok_files (enc : PyVal → Except DumpErr String) (tmp : String)
    (faults : Faults) (fs : FS) (filename : String) (data : PyVal) (priv : Bool)
    (htf : tmp ≠ filename) (hfe : filename ≠ "") :
    (save_json enc tmp faults fs filename data priv).1 = .ok () →
      ∃ s, enc data = .ok s ∧
        ((save_json enc tmp faults fs filename data priv).2).files filename =
          some ⟨s, if priv then 0o600 else 0o644⟩ := by
  obtain ⟨fc, fw, fcl, fch, fr, frm⟩ := faults
  intro he
  cases hd : enc data with
  | error de =>
    cases de with
    | typeError =>
      cases hf : find_paths_unserializable_data jsonDumps data <;> simp [save_json, hd, hf] at he
    | valueError => simp [save_json, hd] at he
  | ok jd =>
    refine ⟨jd, rfl, ?_⟩
    cases fc <;> cases fw <;> cases fcl <;> cases priv <;> cases fch <;> cases fr <;> cases frm <;>
      simp_all [save_json, hd, cleanupTmp_files_other, FS.files_setFile, FS.files_delFile,
        fsReplace, htf, hfe, Ne.symm htf]

/-- C1: `save_json` is atomic with respect to the target file.  For a
fresh temp name (distinct from the target, which is a real path) and
any injected failure: if the call fails — serialization failure,
uncaught encoder error, or any injected `OSError` — the target file
(content, permissions, and existence alike) is exactly as before the
call; if the call succeeds, the target holds exactly the newly
serialized content in full. -/
theorem save_json_atomicity (enc : PyVal → Except DumpErr String) (tmp : String)
    (faults : Faults) (fs : FS) (filename : String) (data : PyVal) (priv : Bool)
    (htf : tmp ≠ filename) (hfe : filename ≠ "") :
    (∀ e, (save_json enc tmp faults fs filename data priv).1 = .error e →
      ((save_json enc tmp faults fs filename data priv).2).files filename = fs.files filename)
    ∧ ((save_json enc tmp faults fs filename data priv).1 = .ok () →
      ∃ s, enc data = .ok s ∧
        ((save_json enc tmp faults fs filename data priv).2).files filename =
          some ⟨s, if priv then 0o600 else 0o644⟩) :=
  ⟨save_json_err_files enc tmp faults fs filename data priv htf hfe,
   save_json_ok_files enc tmp faults fs filename data priv htf hfe⟩

/-- Witness for C1: an injected `os.replace` failure leaves a
pre-existing target file untouched, and a fault-free save of `{}`
succeeds and leaves exactly `"{}"` in the target. -/
theorem save_json_atomicity_witness :
    (((save_json jsonDumpsIndent4 "cfg.json.tmp" ⟨false, false, false, false, true, false⟩
        (emptyFS.setFile "cfg.json" ⟨"old", 0o644⟩) "cfg.json" (.dict []) false).2).files
          "cfg.json" =
      (emptyFS.setFile "cfg.json" ⟨"old", 0o644⟩).files "cfg.json")
    ∧ (∃ s, jsonDumpsIndent4 (.dict []) = .ok s ∧
        ((save_json jsonDumpsIndent4 "cfg.json.tmp" noFaults emptyFS "cfg.json"
            (.dict []) false).2).files "cfg.json" = some ⟨s, if false then 0o600 else 0o644⟩) :=
  ⟨(save_json_atomicity jsonDumpsIndent4 "cfg.json.tmp" ⟨false, false, false, false, true, false⟩
      (emptyFS.setFile "cfg.json" ⟨"old", 0o644⟩) "cfg.json" (.dict []) false
      (by decide) (by decide)).1 .write
      (by simp [save_json, jsonDumpsIndent4, dumpsCh, Except.map, emptyFS]),
   (save_json_atomicity jsonDumpsIndent4 "cfg.json.tmp" noFaults emptyFS "cfg.json"
      (.dict []) false (by decide) (by decide)).2
      (by simp [save_json, jsonDumpsIndent4, dumpsCh, Except.map, noFaults, emptyFS])⟩

/-- C8: on a successful save, the final file's permission bits are
`0o644` (world-readable) when `private` is false and stay at the
temp-file default `0o600` (owner only) when `private` is true; and for
a private save the `chmod` step is not performed at all — the result is
independent of whether the `chmod` call would have failed. -/
theorem save_json_private_permissions (enc : PyVal → Except DumpErr String) (tmp : String)
    (faults : Faults) (fs : FS) (filename : String) (data : PyVal) (priv : Bool)
    (htf : tmp ≠ filename) (hfe : filename ≠ "") :
    ((save_json enc tmp faults fs filename data priv).1 = .ok () →
      ∃ r, ((save_json enc tmp faults fs filename data priv).2).files filename = some r ∧
        r.mode = (if priv then 0o600 else 0o644))
    ∧ (∀ b, save_json enc tmp
        ⟨faults.failCreate, faults.failWrite, faults.failClose, b,
         faults.failReplace, faults.failRemove⟩ fs filename data true =
        save_json enc tmp faults fs filename data true) := by
  constructor
  · intro he
    obtain ⟨s, _, hfiles⟩ := save_json_ok_files enc tmp faults fs filename data priv htf hfe he
    exact ⟨⟨s, if priv then 0o600 else 0o644⟩, hfiles, rfl⟩
  · intro b
    obtain ⟨fc, fw, fcl, fch, fr, frm⟩ := faults
    cases hd : enc data with
    | error de =>
      cases de with
      | typeError =>
        cases hf : find_paths_unserializable_data jsonDumps data <;> simp [save_json, hd, hf]
      | valueError => simp [save_json, hd]
    | ok jd => simp [save_json, hd, cleanupTmp]

/-- Witness for C8: a fault-free private save of `{}` (temp name
distinct from the target) ends with the target at mode `0o600`, and a
private save's result ignores an injected `chmod` fault. -/
theorem save_json_private_permissions_witness :
    (∃ r, ((save_json jsonDumpsIndent4 "secret.tmp" noFaults emptyFS "secret.json"
        (.dict []) true).2).files "secret.json" = some r ∧ r.mode = (if true then 0o600 else 0o644))
    ∧ save_json jsonDumpsIndent4 "secret.tmp" ⟨false, false, false, true, false, false⟩
        emptyFS "secret.json" (.dict []) true =
      save_json jsonDumpsIndent4 "secret.tmp" noFaults emptyFS "secret.json" (.dict []) true :=
  ⟨(save_json_private_permissions jsonDumpsIndent4 "secret.tmp" noFaults emptyFS "secret.json"
      (.dict []) true (by decide) (by decide)).1
      (by simp [save_json, jsonDumpsIndent4, dumpsCh, Except.map, noFaults, emptyFS]),
   (save_json_private_permissions jsonDumpsIndent4 "secret.tmp" noFaults emptyFS "secret.json"
      (.dict []) true (by decide) (by decide)).2 true⟩

theorem isDigitC_digitChar (n : Nat) (h : n < 10) : isDigitC (digitChar n) = true := by
  interval_cases n <;> decide

theorem digitChar_val (n : Nat) (h : n < 10) : (digitChar n).toNat - 48 = n := by
  interval_cases n <;> decide

theorem natStrAux_ne_nil (fuel n : Nat) (h : n < fuel) : natStrAux fuel n ≠ [] := by
  cases fuel with
  | zero => omega
  | succ f =>
    rw [natStrAux]
    split
    · simp
    · simp

theorem natStrAux_all_digits (fuel n : Nat) :
    ∀ c ∈ natStrAux fuel n, isDigitC c = true := by
  induction fuel generalizing n with
  | zero => intro c hc; simp [natStrAux] at hc
  | succ f ih =>
    intro c hc
    rw [natStrAux] at hc
    split at hc
    · next hlt =>
      simp at hc
      rw [hc]
      exact isDigitC_digitChar n hlt
    · next hge =>
      rcases List.mem_append.mp hc with h1 | h2
      · exact ih (n / 10) c h1
      · simp at h2
        rw [h2]
        exact isDigitC_digitChar (n % 10) (Nat.mod_lt n (by omega))

theorem natStrAux_head_ne_zero (fuel n : Nat) (hpos : 0 < n) (h : n < fuel) :
    ∀ c, (natStrAux fuel n).head? = some c → c ≠ '0' := by
  induction fuel generalizing n with
  | zero => omega
  | succ f ih =>
    intro c hc
    rw [natStrAux] at hc
    split at hc
    · next hlt =>
      simp at hc
      rw [← hc]
      interval_cases n <;> decide
    · next hge =>
      have hne := natStrAux_ne_nil f (n / 10) (by omega)
      rw [List.head?_append_of_ne_nil _ hne] at hc
      exact ih (n / 10) (by omega) (by omega) c hc

/-- The folding step `parseDigits` applies per digit character. -/
def digitStep (a : Nat) (c : Char) : Nat := a * 10 + (c.toNat - 48)

theorem parseDigits_append (A : List Char) (hA : ∀ c ∈ A, isDigitC c = true) :
    ∀ acc rest, parseDigits acc (A ++ rest) = parseDigits (A.foldl digitStep acc) rest := by
  induction A with
  | nil => intro acc rest; simp
  | cons c tl ih =>
    intro acc rest
    have hc := hA c (by simp)
    simp only [List.cons_append, parseDigits, hc, if_true, List.foldl_cons]
    exact ih (fun c h => hA c (by simp [h])) _ rest

theorem parseDigits_stop (acc : Nat) (rest : List Char)
    (h : ∀ c, rest.head? = some c → isDigitC c = false) :
    parseDigits acc rest = (acc, rest) := by
  cases rest with
  | nil => rw [parseDigits]
  | cons c tl =>
    rw [parseDigits]
    rw [h c rfl]
    simp

theorem natStrAux_foldl (fuel n : Nat) (h : n < fuel) :
    ∀ acc, (natStrAux fuel n).foldl digitStep acc = acc * 10 ^ (natStrAux fuel n).length + n := by
  induction fuel generalizing n with
  | zero => omega
  | succ f ih =>
    intro acc
    rw [natStrAux]
    split
    · next hlt =>
      simp [digitStep, digitChar_val n hlt]
    · next hge =>
      have hd : n / 10 < f := by
        have h2 : n / 10 < n := Nat.div_lt_self (by omega) (by omega)
        omega
      rw [List.foldl_append, ih (n / 10) hd acc]
      simp only [List.foldl_cons, List.foldl_nil, List.length_append, List.length_cons,
        List.length_nil, digitStep]
      rw [digitChar_val (n % 10) (Nat.mod_lt n (by omega))]
      ring_nf
      omega

theorem parseNat_natStr (n : Nat) (rest : List Char)
    (hrest : ∀ c, rest.head? = some c → isDigitC c = false) :
    parseNat ((natStr n).data ++ rest) = some (n, rest) := by
  by_cases hz : n = 0
  · subst hz
    show parseNat ('0' :: rest) = some (0, rest)
    rw [parseNat]
    simp
  · have hpos : 0 < n := Nat.pos_of_ne_zero hz
    have hlt : n < n + 1 := by omega
    cases hA : natStrAux (n + 1) n with
    | nil => exact absurd hA (natStrAux_ne_nil (n + 1) n hlt)
    | cons c A =>
      have hcd : isDigitC c = true := by
        have := natStrAux_all_digits (n + 1) n c (by rw [hA]; simp)
        exact this
      have hc0 : c ≠ '0' := by
        refine natStrAux_head_ne_zero (n + 1) n hpos hlt c ?_
        rw [hA]; rfl
      have hdata : (natStr n).data = c :: A := by
        rw [natStr] at *
        simp only [String.data] at *
        exact hA
      rw [hdata]
      show parseNat (c :: (A ++ rest)) = some (n, rest)
      rw [parseNat]
      rw [if_neg hc0, if_pos hcd]
      have hAdig : ∀ d ∈ A, isDigitC d = true := by
        intro d hd
        exact natStrAux_all_digits (n + 1) n d (by rw [hA]; simp [hd])
      rw [parseDigits_append A hAdig (c.toNat - 48) rest, parseDigits_stop _ rest hrest]
      have hfold := natStrAux_foldl (n + 1) n hlt 0
      rw [hA] at hfold
      simp only [List.foldl_cons, digitStep, Nat.zero_mul, Nat.zero_add] at hfold
      rw [hfold]

theorem hexVal_hexDigitChar (n : Nat) (h : n < 16) : hexVal (hexDigitChar n) = some n := by
  interval_cases n <;> rfl

theorem hexQuad_digits (t : Nat) (ht : t < 0x10000) :
    hexQuad (hexDigitChar (t / 4096 % 16)) (hexDigitChar (t / 256 % 16))
      (hexDigitChar (t / 16 % 16)) (hexDigitChar (t % 16)) = some t := by
  rw [hexQuad]
  rw [hexVal_hexDigitChar _ (Nat.mod_lt _ (by omega)), hexVal_hexDigitChar _ (Nat.mod_lt _ (by omega)),
    hexVal_hexDigitChar _ (Nat.mod_lt _ (by omega)), hexVal_hexDigitChar _ (Nat.mod_lt _ (by omega))]
  show some _ = some _
  congr 1
  omega

theorem parseStringBody_escapeChar (c : Char) (acc Z : List Char) :
    parseStringBody acc (escapeChar c ++ Z) = parseStringBody (c :: acc) Z := by
  have hvalid : c.toNat < 0xd800 ∨ (0xe000 ≤ c.toNat ∧ c.toNat < 0x110000) := c.valid
  by_cases h1 : c = '"'
  · subst h1; simp [escapeChar, parseStringBody, parseStringEsc, unescapeChar]
  by_cases h2 : c = '\\'
  · subst h2; simp [escapeChar, parseStringBody, parseStringEsc, unescapeChar]
  by_cases h3 : c = '\x08'
  · subst h3; simp [escapeChar, parseStringBody, parseStringEsc, unescapeChar]
  by_cases h4 : c = '\x09'
  · subst h4; simp [escapeChar, parseStringBody, parseStringEsc, unescapeChar]
  by_cases h5 : c = '\x0a'
  · subst h5; simp [escapeChar, parseStringBody, parseStringEsc, unescapeChar]
  by_cases h6 : c = '\x0c'
  · subst h6; simp [escapeChar, parseStringBody, parseStringEsc, unescapeChar]
  by_cases h7 : c = '\x0d'
  · subst h7; simp [escapeChar, parseStringBody, parseStringEsc, unescapeChar]
  rw [escapeChar, if_neg h1, if_neg h2, if_neg h3, if_neg h4, if_neg h5, if_neg h6, if_neg h7]
  by_cases h8 : 0x20 ≤ c.toNat ∧ c.toNat ≤ 0x7e
  · rw [if_pos h8]
    show parseStringBody acc (c :: Z) = _
    rw [parseStringBody, if_neg h1, if_neg h2, if_neg (by omega : ¬ c.toNat < 0x20)]
  rw [if_neg h8]
  by_cases h9 : c.toNat < 0x10000
  · rw [if_pos h9]
    simp only [hex4, List.cons_append, List.append_assoc, List.nil_append]
    rw [parseStringBody]
    rw [if_neg (by decide : ¬ ('\\' : Char) = '"'), if_pos rfl]
    rw [parseStringEsc, if_pos rfl]
    rw [parseStringU]
    rw [hexQuad_digits c.toNat h9]
    dsimp only
    rw [if_neg (by omega : ¬ (0xd800 ≤ c.toNat ∧ c.toNat ≤ 0xdbff)),
      if_neg (by omega : ¬ (0xdc00 ≤ c.toNat ∧ c.toNat ≤ 0xdfff))]
    rw [Char.ofNat_toNat]
  · rw [if_neg h9]
    simp only [hex4, List.cons_append, List.append_assoc, List.nil_append]
    rw [parseStringBody]
    rw [if_neg (by decide : ¬ ('\\' : Char) = '"'), if_pos rfl]
    rw [parseStringEsc, if_pos rfl]
    rw [parseStringU]
    rw [hexQuad_digits _ (by omega)]
    dsimp only
    rw [if_pos (by omega : 0xd800 ≤ 0xd800 + (c.toNat - 0x10000) / 0x400 ∧
      0xd800 + (c.toNat - 0x10000) / 0x400 ≤ 0xdbff)]
    rw [parseStringPair]
    rw [if_pos ⟨rfl, rfl⟩]
    rw [hexQuad_digits _ (by omega)]
    dsimp only
    rw [if_pos (by omega : 0xdc00 ≤ 0xdc00 + (c.toNat - 0x10000) % 0x400 ∧
      0xdc00 + (c.toNat - 0x10000) % 0x400 ≤ 0xdfff)]
    have harith : 0x10000 + (0xd800 + (c.toNat - 0x10000) / 0x400 - 0xd800) * 0x400 +
        (0xdc00 + (c.toNat - 0x10000) % 0x400 - 0xdc00) = c.toNat := by omega
    rw [harith, Char.ofNat_toNat]

theorem parseStringBody_escChars (cs : List Char) :
    ∀ (acc rest : List Char),
      parseStringBody acc (escChars cs ++ '"' :: rest) =
        some (String.mk (acc.reverse ++ cs), rest) := by
  induction cs with
  | nil =>
    intro acc rest
    show parseStringBody acc ('"' :: rest) = _
    rw [parseStringBody, if_pos rfl]
    simp
  | cons c tl ih =>
    intro acc rest
    show parseStringBody acc ((escapeChar c ++ escChars tl) ++ '"' :: rest) = _
    rw [List.append_assoc, parseStringBody_escapeChar c acc (escChars tl ++ '"' :: rest), ih]
    simp

/-- The string scanner inverts the encoder's escaping: scanning the
escaped text of `s` up to the closing quote yields `s` and the
remainder. -/
theorem parseStringBody_roundtrip (s : String) (rest : List Char) :
    parseStringBody [] (escChars s.data ++ '"' :: rest) = some (s, rest) := by
  rw [parseStringBody_escChars s.data [] rest]
  simp

/-- String membership (Boolean). -/
def memStr (s : String) : List String → Bool
  | [] => false
  | t :: tl => if s = t then true else memStr s tl

/-- No string occurs twice (Boolean). -/
def nodupStrB : List String → Bool
  | [] => true
  | s :: tl => !(memStr s tl) && nodupStrB tl

/-- The key string of a mapping entry (only meaningful for `str` keys,
which is all a Document has). -/
def keyName : PyVal × PyVal → String
  | (.str s, _) => s
  | _ => ""

/-- Whether a mapping entry's key is a Python `str`. -/
def isStrKey : PyVal × PyVal → Bool
  | (.str _, _) => true
  | _ => false

/-- Every entry of the list has a `str` key. -/
def allStrKeysB : List (PyVal × PyVal) → Bool
  | [] => true
  | e :: tl => isStrKey e && allStrKeysB tl

mutual
/-- The spec's Document data model (§3), as a Boolean predicate on the
embedded values: mappings with unique string keys, sequences, and the
scalars string, integer, boolean and null.  NaN (a float) and
arbitrary objects are not Documents. -/
def IsDocB : PyVal → Bool
  | .str _ => true
  | .int _ => true
  | .bool _ => true
  | .none => true
  | .nan => false
  | .list xs => IsDocItemsB xs
  | .dict kvs => IsDocEntriesB kvs && nodupStrB (kvs.map keyName)
  | .set _ => false
  | .obj _ _ _ => false

def IsDocItemsB : List PyVal → Bool
  | [] => true
  | x :: tl => IsDocB x && IsDocItemsB tl

def IsDocEntriesB : List (PyVal × PyVal) → Bool
  | [] => true
  | e :: tl => isStrKey e && IsDocB e.2 && IsDocEntriesB tl
end

mutual
/-- Fuel needed by `parseVal` to parse the serialization of a value:
one unit per dispatching step, as consumed by the parser's recursion. -/
def pfuel : PyVal → Nat
  | .str _ => 1
  | .int _ => 1
  | .bool _ => 1
  | .none => 1
  | .nan => 1
  | .list xs => 1 + pfuelItems xs
  | .dict kvs => 1 + pfuelEntries kvs
  | .set _ => 1
  | .obj _ _ _ => 1

def pfuelItems : List PyVal → Nat
  | [] => 0
  | [x] => 1 + pfuel x
  | x :: y :: tl => 1 + pfuel x + pfuelItems (y :: tl)

def pfuelEntries : List (PyVal × PyVal) → Nat
  | [] => 0
  | [e] => 1 + pfuel e.2
  | e :: e2 :: tl => 1 + pfuel e.2 + pfuelEntries (e2 :: tl)
end

/-- The remainder does not begin with a decimal digit (so a greedy
number parse before it stops exactly at the boundary). -/
def noDigitHeadB : List Char → Bool
  | [] => true
  | c :: _ => !(isDigitC c)

theorem skipWS_ws_append (ws : List Char) (hws : ∀ c ∈ ws, isJsonWS c = true) (z : List Char) :
    skipWS (ws ++ z) = skipWS z := by
  induction ws with
  | nil => rfl
  | cons c tl ih =>
    rw [List.cons_append, skipWS, if_pos (hws c (by simp))]
    exact ih (fun c h => hws c (by simp [h]))

theorem skipWS_not_ws (c : Char) (z : List Char) (h : isJsonWS c = false) :
    skipWS (c :: z) = c :: z := by
  rw [skipWS, if_neg (by simp [h])]

theorem newlineInd_ws (ind : Option Nat) (lvl : Nat) :
    ∀ c ∈ newlineInd ind lvl, isJsonWS c = true := by
  cases ind with
  | none => simp [newlineInd]
  | some w =>
    intro c hc
    simp only [newlineInd] at hc
    rcases List.mem_cons.mp hc with h | h
    · rw [h]; rfl
    · rw [List.eq_of_mem_replicate h]; rfl

theorem skipWS_newlineInd (ind : Option Nat) (lvl : Nat) (z : List Char) :
    skipWS (newlineInd ind lvl ++ z) = skipWS z :=
  skipWS_ws_append _ (newlineInd_ws ind lvl) z

theorem isDigitC_props (c : Char) (h : isDigitC c = true) :
    isJsonWS c = false ∧ c ≠ ']' ∧ c ≠ '\x7d' := by
  refine ⟨?_, fun hc => by rw [hc] at h; exact absurd h (by decide),
    fun hc => by rw [hc] at h; exact absurd h (by decide)⟩
  by_contra hw
  simp only [Bool.not_eq_false] at hw
  simp only [isJsonWS, Bool.or_eq_true, decide_eq_true_eq] at hw
  rcases hw with ((hc | hc) | hc) | hc <;>
    · rw [hc] at h; exact absurd h (by decide)

theorem natStr_head_digit (n : Nat) :
    ∃ c tail, (natStr n).data = c :: tail ∧ isDigitC c = true := by
  cases hA : natStrAux (n + 1) n with
  | nil => exact absurd hA (natStrAux_ne_nil (n + 1) n (by omega))
  | cons c tail =>
    refine ⟨c, tail, ?_, ?_⟩
    · rw [natStr]; exact hA
    · exact natStrAux_all_digits (n + 1) n c (by rw [hA]; simp)

theorem dumpsCh_head (an : Bool) (ind : Option Nat) (lvl : Nat) (d : PyVal) (out : List Char)
    (h : dumpsCh an ind lvl d = .ok out) :
    ∃ c tail, out = c :: tail ∧ isJsonWS c = false ∧ c ≠ ']' ∧ c ≠ '\x7d' := by
  cases d with
  | str s =>
    simp only [dumpsCh, Except.ok.injEq] at h
    exact ⟨'"', _, h.symm, by decide, by decide, by decide⟩
  | int n =>
    simp only [dumpsCh, Except.ok.injEq] at h
    rw [intStr] at h
    by_cases hn : n < 0
    · rw [if_pos hn] at h
      refine ⟨'-', (natStr (-n).toNat).data, ?_, by decide, by decide, by decide⟩
      rw [← h]
      rfl
    · rw [if_neg hn] at h
      obtain ⟨c, tail, hd, hdig⟩ := natStr_head_digit n.toNat
      obtain ⟨p1, p2, p3⟩ := isDigitC_props c hdig
      exact ⟨c, tail, by rw [← h, hd], p1, p2, p3⟩
  | bool b =>
    cases b <;> simp only [dumpsCh, Except.ok.injEq] at h
    · exact ⟨'f', _, h.symm, by decide, by decide, by decide⟩
    · exact ⟨'t', _, h.symm, by decide, by decide, by decide⟩
  | none =>
    simp only [dumpsCh, Except.ok.injEq] at h
    exact ⟨'n', _, h.symm, by decide, by decide, by decide⟩
  | nan =>
    cases an with
    | false => simp [dumpsCh] at h
    | true =>
      simp only [dumpsCh, if_true, Except.ok.injEq] at h
      exact ⟨'N', _, h.symm, by decide, by decide, by decide⟩
  | list xs =>
    cases xs with
    | nil =>
      simp only [dumpsCh, Except.ok.injEq] at h
      exact ⟨'[', _, h.symm, by decide, by decide, by decide⟩
    | cons x tl =>
      simp only [dumpsCh] at h
      cases hi : dumpsItems an ind (lvl + 1) (x :: tl) with
      | ok items =>
        rw [hi] at h
        simp only [Except.bind, bind, Except.ok.injEq] at h
        exact ⟨'[', _, h.symm, by decide, by decide, by decide⟩
      | error e => rw [hi] at h; simp [Except.bind, bind] at h
  | dict kvs =>
    cases kvs with
    | nil =>
      simp only [dumpsCh, Except.ok.injEq] at h
      exact ⟨'\x7b', _, h.symm, by decide, by decide, by decide⟩
    | cons e tl =>
      simp only [dumpsCh] at h
      cases hi : dumpsEntries an ind (lvl + 1) (e :: tl) with
      | ok items =>
        rw [hi] at h
        simp only [Except.bind, bind, Except.ok.injEq] at h
        exact ⟨'\x7b', _, h.symm, by decide, by decide, by decide⟩
      | error e2 => rw [hi] at h; simp [Except.bind, bind] at h
  | set xs => simp [dumpsCh] at h
  | obj cls kind asDict => simp [dumpsCh] at h

theorem itemSep_len (ind : Option Nat) (lvl : Nat) : 1 ≤ (itemSep ind lvl).length := by
  cases ind <;> simp [itemSep]

theorem pfuel_le_all : ∀ N : Nat,
    (∀ (an : Bool) (ind : Option Nat) (lvl : Nat) (d : PyVal) (out : List Char),
      sizeOf d ≤ N → dumpsCh an ind lvl d = .ok out → pfuel d ≤ out.length) ∧
    (∀ (an : Bool) (ind : Option Nat) (lvl : Nat) (xs : List PyVal) (items : List Char),
      sizeOf xs ≤ N → dumpsItems an ind lvl xs = .ok items →
      pfuelItems xs ≤ items.length + 1) ∧
    (∀ (an : Bool) (ind : Option Nat) (lvl : Nat) (kvs : List (PyVal × PyVal))
      (items : List Char),
      sizeOf kvs ≤ N → dumpsEntries an ind lvl kvs = .ok items →
      pfuelEntries kvs ≤ items.length + 1) := by
  intro N
  induction N using Nat.strong_induction_on with
  | _ N IH =>
  refine ⟨fun an ind lvl d out hsz h => ?_, fun an ind lvl xs items hsz h => ?_,
    fun an ind lvl kvs items hsz h => ?_⟩
  · cases d with
    | str s =>
      simp only [dumpsCh, Except.ok.injEq] at h
      rw [← h]
      simp [pfuel]
    | int n =>
      simp only [dumpsCh, Except.ok.injEq] at h
      obtain ⟨c, tail, hd, _⟩ := natStr_head_digit n.toNat
      rw [← h, intStr]
      split
      · show pfuel (.int n) ≤ (("-" ++ natStr (-n).toNat).data).length
        simp [pfuel]
      · rw [pfuel, hd]
        simp
    | bool b => cases b <;> (simp only [dumpsCh, Except.ok.injEq] at h; rw [← h]; simp [pfuel])
    | none =>
      simp only [dumpsCh, Except.ok.injEq] at h
      rw [← h]; simp [pfuel]
    | nan =>
      cases an with
      | false => simp [dumpsCh] at h
      | true =>
        simp only [dumpsCh, if_true, Except.ok.injEq] at h
        rw [← h]; simp [pfuel]
    | list xs =>
      cases xs with
      | nil =>
        simp only [dumpsCh, Except.ok.injEq] at h
        rw [← h]; simp [pfuel, pfuelItems]
      | cons x tl =>
        simp only [dumpsCh] at h
        cases hi : dumpsItems an ind (lvl + 1) (x :: tl) with
        | ok items =>
          rw [hi] at h
          simp only [Except.bind, bind, Except.ok.injEq] at h
          have hlt : sizeOf (x :: tl) < N := by
            have : sizeOf (x :: tl) < sizeOf (PyVal.list (x :: tl)) := by
              simp only [PyVal.list.sizeOf_spec]; omega
            omega
          have := (IH (sizeOf (x :: tl)) hlt).2.1 an ind (lvl + 1) (x :: tl) items le_rfl hi
          rw [← h, pfuel]
          simp only [List.length_cons, List.length_append]
          omega
        | error e => rw [hi] at h; simp [Except.bind, bind] at h
    | dict kvs =>
      cases kvs with
      | nil =>
        simp only [dumpsCh, Except.ok.injEq] at h
        rw [← h]; simp [pfuel, pfuelEntries]
      | cons e tl =>
        simp only [dumpsCh] at h
        cases hi : dumpsEntries an ind (lvl + 1) (e :: tl) with
        | ok items =>
          rw [hi] at h
          simp only [Except.bind, bind, Except.ok.injEq] at h
          have hlt : sizeOf (e :: tl) < N := by
            have : sizeOf (e :: tl) < sizeOf (PyVal.dict (e :: tl)) := by
              simp only [PyVal.dict.sizeOf_spec]; omega
            omega
          have := (IH (sizeOf (e :: tl)) hlt).2.2 an ind (lvl + 1) (e :: tl) items le_rfl hi
          rw [← h, pfuel]
          simp only [List.length_cons, List.length_append]
          omega
        | error e2 => rw [hi] at h; simp [Except.bind, bind] at h
    | set xs => simp [dumpsCh] at h
    | obj cls kind asDict => simp [dumpsCh] at h
  · cases xs with
    | nil => simp [pfuelItems]
    | cons x tl =>
      cases tl with
      | nil =>
        simp only [dumpsItems] at h
        have hlt : sizeOf x < N := by
          have : sizeOf x < sizeOf [x] := by
            simp only [List.cons.sizeOf_spec]; omega
          omega
        have := (IH (sizeOf x) hlt).1 an ind lvl x items le_rfl h
        rw [pfuelItems]
        omega
      | cons y tl2 =>
        simp only [dumpsItems] at h
        cases hx : dumpsCh an ind lvl x with
        | ok cx =>
          rw [hx] at h
          cases hr : dumpsItems an ind lvl (y :: tl2) with
          | ok restI =>
            rw [hr] at h
            simp only [Except.bind, bind, Except.ok.injEq] at h
            have hlt1 : sizeOf x < N := by
              have : sizeOf x < sizeOf (x :: y :: tl2) := by
                simp only [List.cons.sizeOf_spec]; omega
              omega
            have hlt2 : sizeOf (y :: tl2) < N := by
              have : sizeOf (y :: tl2) < sizeOf (x :: y :: tl2) := by
                simp only [List.cons.sizeOf_spec]; omega
              omega
            have h1 := (IH (sizeOf x) hlt1).1 an ind lvl x cx le_rfl hx
            have h2 := (IH (sizeOf (y :: tl2)) hlt2).2.1 an ind lvl (y :: tl2) restI le_rfl hr
            have h3 := itemSep_len ind lvl
            rw [← h, pfuelItems]
            simp only [List.length_append]
            omega
          | error e => rw [hr] at h; simp [Except.bind, bind] at h
        | error e => rw [hx] at h; simp [Except.bind, bind] at h
  · cases kvs with
    | nil => simp [pfuelEntries]
    | cons e tl =>
      obtain ⟨k, v⟩ := e
      have hszv : sizeOf v < sizeOf ((k, v) :: tl) := by
        simp only [List.cons.sizeOf_spec, Prod.mk.sizeOf_spec]; omega
      cases tl with
      | nil =>
        simp only [dumpsEntries] at h
        cases hk : keyStr an k with
        | ok ks =>
          rw [hk] at h
          cases hv : dumpsCh an ind lvl v with
          | ok cv =>
            rw [hv] at h
            simp only [Except.bind, bind, Except.ok.injEq] at h
            have h1 := (IH (sizeOf v) (by omega)).1 an ind lvl v cv le_rfl hv
            rw [← h, pfuelEntries]
            simp only [List.length_cons, List.length_append]
            omega
          | error e2 => rw [hv] at h; simp [Except.bind, bind] at h
        | error e2 => rw [hk] at h; simp [Except.bind, bind] at h
      | cons e2 tl2 =>
        simp only [dumpsEntries] at h
        cases hk : keyStr an k with
        | ok ks =>
          rw [hk] at h
          cases hv : dumpsCh an ind lvl v with
          | ok cv =>
            rw [hv] at h
            cases hr : dumpsEntries an ind lvl (e2 :: tl2) with
            | ok restI =>
              rw [hr] at h
              simp only [Except.bind, bind, Except.ok.injEq] at h
              have hlt2 : sizeOf (e2 :: tl2) < N := by
                have : sizeOf (e2 :: tl2) < sizeOf ((k, v) :: e2 :: tl2) := by
                  simp only [List.cons.sizeOf_spec, Prod.mk.sizeOf_spec]; omega
                omega
              have h1 := (IH (sizeOf v) (by omega)).1 an ind lvl v cv le_rfl hv
              have h2 := (IH (sizeOf (e2 :: tl2)) hlt2).2.2 an ind lvl (e2 :: tl2) restI le_rfl hr
              have h3 := itemSep_len ind lvl
              rw [← h, pfuelEntries]
              simp only [List.length_cons, List.length_append]
              omega
            | error e3 => rw [hr] at h; simp [Except.bind, bind] at h
          | error e3 => rw [hv] at h; simp [Except.bind, bind] at h
        | error e3 => rw [hk] at h; simp [Except.bind, bind] at h

theorem pfuel_le_dumps (an : Bool) (ind : Option Nat) (lvl : Nat) (d : PyVal) (out : List Char)
    (h : dumpsCh an ind lvl d = .ok out) : pfuel d ≤ out.length :=
  (pfuel_le_all (sizeOf d)).1 an ind lvl d out le_rfl h

theorem pfuel_pos (d : PyVal) : 1 ≤ pfuel d := by
  cases d <;> simp [pfuel]

theorem digit_not_dispatch (c : Char) (h : isDigitC c = true) :
    c ≠ '"' ∧ c ≠ '\x7b' ∧ c ≠ '[' ∧ c ≠ 't' ∧ c ≠ 'f' ∧ c ≠ 'n' ∧ c ≠ '-' := by
  refine ⟨?_, ?_, ?_, ?_, ?_, ?_, ?_⟩ <;>
    · intro hc; rw [hc] at h; exact absurd h (by decide)

theorem memStr_append (s : String) (A B : List String) :
    memStr s (A ++ B) = (memStr s A || memStr s B) := by
  induction A with
  | nil => simp [memStr]
  | cons a tl ih =>
    by_cases hc : s = a
    · simp [memStr, hc]
    · simp only [List.cons_append, memStr, if_neg hc]
      exact ih

theorem nodupStrB_middle (A : List String) (s : String) (B : List String)
    (h : nodupStrB (A ++ s :: B) = true) : memStr s A = false := by
  induction A with
  | nil => rfl
  | cons a tl ih =>
    simp only [List.cons_append, nodupStrB, Bool.and_eq_true, Bool.not_eq_true'] at h
    obtain ⟨hmem, hnd⟩ := h
    simp only [List.append_eq] at hmem hnd
    rw [memStr_append] at hmem
    have has : a ≠ s := by
      intro hc
      subst hc
      simp [memStr] at hmem
    rw [memStr, if_neg (fun hc => has hc.symm)]
    exact ih hnd

theorem dictInsert_append (acc : List (PyVal × PyVal)) (s : String) (v : PyVal)
    (hstr : allStrKeysB acc = true) (hmem : memStr s (acc.map keyName) = false) :
    dictInsert acc s v = acc ++ [(.str s, v)] := by
  induction acc with
  | nil => rfl
  | cons e tl ih =>
    obtain ⟨k0, v0⟩ := e
    simp only [allStrKeysB, Bool.and_eq_true] at hstr
    obtain ⟨hk0, htl⟩ := hstr
    cases k0 with
    | str t =>
      simp only [List.map_cons, keyName, memStr] at hmem
      rw [dictInsert]
      split at hmem
      · exact absurd hmem (by simp)
      · next hne =>
        rw [if_neg (fun hc => hne hc.symm)]
        rw [ih htl hmem]
        simp
    | _ => simp [isStrKey] at hk0

theorem dumpsItems_head (an : Bool) (ind : Option Nat) (lvl : Nat) (x : PyVal)
    (tl : List PyVal) (items : List Char) (h : dumpsItems an ind lvl (x :: tl) = .ok items) :
    ∃ c0 t0, items = c0 :: t0 ∧ isJsonWS c0 = false ∧ c0 ≠ ']' ∧ c0 ≠ '\x7d' := by
  cases tl with
  | nil =>
    simp only [dumpsItems] at h
    exact dumpsCh_head an ind lvl x items h
  | cons y tl2 =>
    simp only [dumpsItems] at h
    cases hx : dumpsCh an ind lvl x with
    | ok cx =>
      rw [hx] at h
      cases hr : dumpsItems an ind lvl (y :: tl2) with
      | ok restI =>
        rw [hr] at h
        simp only [Except.bind, bind, Except.ok.injEq] at h
        obtain ⟨c0, t0, hcx, p1, p2, p3⟩ := dumpsCh_head an ind lvl x cx hx
        exact ⟨c0, t0 ++ itemSep ind lvl ++ restI, by rw [← h, hcx]; simp, p1, p2, p3⟩
      | error e => rw [hr] at h; simp [Except.bind, bind] at h
    | error e => rw [hx] at h; simp [Except.bind, bind] at h

theorem dumpsEntries_head (an : Bool) (ind : Option Nat) (lvl : Nat) (e : PyVal × PyVal)
    (tl : List (PyVal × PyVal)) (items : List Char)
    (h : dumpsEntries an ind lvl (e :: tl) = .ok items) :
    ∃ t0, items = '"' :: t0 := by
  obtain ⟨k, v⟩ := e
  cases tl with
  | nil =>
    simp only [dumpsEntries] at h
    cases hk : keyStr an k with
    | ok ks =>
      rw [hk] at h
      cases hv : dumpsCh an ind lvl v with
      | ok cv =>
        rw [hv] at h
        simp only [Except.bind, bind, Except.ok.injEq] at h
        exact ⟨_, h.symm⟩
      | error e2 => rw [hv] at h; simp [Except.bind, bind] at h
    | error e2 => rw [hk] at h; simp [Except.bind, bind] at h
  | cons e2 tl2 =>
    simp only [dumpsEntries] at h
    cases hk : keyStr an k with
    | ok ks =>
      rw [hk] at h
      cases hv : dumpsCh an ind lvl v with
      | ok cv =>
        rw [hv] at h
        cases hr : dumpsEntries an ind lvl (e2 :: tl2) with
        | ok restI =>
          rw [hr] at h
          simp only [Except.bind, bind, Except.ok.injEq] at h
          exact ⟨_, h.symm⟩
        | error e3 => rw [hr] at h; simp [Except.bind, bind] at h
      | error e3 => rw [hv] at h; simp [Except.bind, bind] at h
    | error e3 => rw [hk] at h; simp [Except.bind, bind] at h

theorem skipWS_newlineInd_close (ind : Option Nat) (lvl : Nat) (d : Char) (rest : List Char)
    (hd : isJsonWS d = false) :
    skipWS (newlineInd ind lvl ++ d :: rest) = d :: rest := by
  rw [skipWS_newlineInd, skipWS_not_ws d rest hd]

theorem noDigitHeadB_newlineInd_close (ind : Option Nat) (lvl : Nat) (d : Char)
    (rest : List Char) (hd : isDigitC d = false) :
    noDigitHeadB (newlineInd ind lvl ++ d :: rest) = true := by
  cases ind with
  | none => simp [newlineInd, noDigitHeadB, hd]
  | some w => simp [newlineInd, noDigitHeadB]; decide

theorem noDigitHeadB_head (rest : List Char) (h : noDigitHeadB rest = true) :
    ∀ c, rest.head? = some c → isDigitC c = false := by
  cases rest with
  | nil => intro c hc; simp at hc
  | cons d tl =>
    intro c hc
    simp only [List.head?_cons, Option.some.injEq] at hc
    subst hc
    simpa [noDigitHeadB] using h

theorem matchLit_self (lit : List Char) : ∀ z, matchLit lit (lit ++ z) = some z := by
  induction lit with
  | nil => intro z; rfl
  | cons l ls ih =>
    intro z
    rw [List.cons_append, matchLit, if_pos rfl]
    exact ih z

theorem itemSep_decomp (ind : Option Nat) (lvl : Nat) :
    ∃ tail, itemSep ind lvl = ',' :: tail ∧ ∀ c ∈ tail, isJsonWS c = true := by
  cases ind with
  | none => exact ⟨[' '], rfl, by intro c hc; simp at hc; rw [hc]; rfl⟩
  | some w =>
    refine ⟨'\n' :: List.replicate (w * lvl) ' ', rfl, ?_⟩
    intro c hc
    rcases List.mem_cons.mp hc with h | h
    · rw [h]; rfl
    · rw [List.eq_of_mem_replicate h]; rfl

theorem allStrKeysB_append (A B : List (PyVal × PyVal)) :
    allStrKeysB (A ++ B) = (allStrKeysB A && allStrKeysB B) := by
  induction A with
  | nil => simp [allStrKeysB]
  | cons e tl ih => simp [allStrKeysB, ih, Bool.and_assoc]

theorem intStr_data_neg (n : Int) (h : n < 0) :
    (intStr n).data = '-' :: (natStr (-n).toNat).data := by
  rw [intStr, if_pos h]
  rfl

/-- The central round-trip triple, by strong induction on the value
size: the serializer output of a Document, followed by any remainder
that does not start with a digit, parses back to exactly that Document
(and the corresponding statements for item lists inside an array and
member lists inside an object, threading the parser accumulators). -/
theorem parse_dumps_all : ∀ N : Nat,
    (∀ (ind : Option Nat) (lvl : Nat) (d : PyVal) (out : List Char),
      sizeOf d ≤ N → IsDocB d = true → dumpsCh true ind lvl d = .ok out →
      ∀ (fuel : Nat) (rest : List Char), pfuel d ≤ fuel → noDigitHeadB rest = true →
      parseVal fuel (out ++ rest) = some (d, rest)) ∧
    (∀ (ind : Option Nat) (lvl : Nat) (xs : List PyVal) (items : List Char),
      sizeOf xs ≤ N → IsDocItemsB xs = true → xs ≠ [] →
      dumpsItems true ind lvl xs = .ok items →
      ∀ (fuel : Nat) (acc : List PyVal) (T rest : List Char), pfuelItems xs ≤ fuel →
      skipWS T = ']' :: rest → noDigitHeadB T = true →
      parseElems fuel acc (items ++ T) = some (.list (acc.reverse ++ xs), rest)) ∧
    (∀ (ind : Option Nat) (lvl : Nat) (kvs : List (PyVal × PyVal)) (items : List Char),
      sizeOf kvs ≤ N → IsDocEntriesB kvs = true → kvs ≠ [] →
      dumpsEntries true ind lvl kvs = .ok items →
      ∀ (fuel : Nat) (acc : List (PyVal × PyVal)) (T rest : List Char),
      pfuelEntries kvs ≤ fuel →
      allStrKeysB acc = true →
      nodupStrB ((acc ++ kvs).map keyName) = true →
      skipWS T = '\x7d' :: rest → noDigitHeadB T = true →
      parseMembers fuel acc (items ++ T) = some (.dict (acc ++ kvs), rest)) := by
  intro N
  induction N using Nat.strong_induction_on with
  | _ N IH =>
  refine ⟨fun ind lvl d out hsz hdoc h fuel rest hfuel hrest => ?_,
    fun ind lvl xs items hsz hdoc hne h fuel acc T rest hfuel hT hTd => ?_,
    fun ind lvl kvs items hsz hdoc hne h fuel acc T rest hfuel hacc hnd hT hTd => ?_⟩
  · obtain ⟨f, rfl⟩ : ∃ f, fuel = f + 1 := ⟨fuel - 1, by have := pfuel_pos d; omega⟩
    cases d with
    | str s =>
      simp only [dumpsCh, Except.ok.injEq] at h
      rw [← h, List.cons_append, parseVal, if_pos rfl]
      rw [List.append_assoc, List.singleton_append, parseStringBody_roundtrip s rest]
      rfl
    | int n =>
      simp only [dumpsCh, Except.ok.injEq] at h
      have hrest2 := noDigitHeadB_head rest hrest
      by_cases hn : n < 0
      · rw [← h, intStr_data_neg n hn, List.cons_append, parseVal]
        rw [if_neg (by decide), if_neg (by decide), if_neg (by decide), if_neg (by decide),
          if_neg (by decide), if_neg (by decide), if_pos rfl]
        rw [parseNat_natStr (-n).toNat rest hrest2]
        have he : (-(((-n).toNat : Nat) : Int)) = n := by omega
        simp only [Option.map_some', he]
      · obtain ⟨c, A, hd, hdig⟩ := natStr_head_digit n.toNat
        obtain ⟨d1, d2, d3, d4, d5, d6, d7⟩ := digit_not_dispatch c hdig
        rw [← h, intStr, if_neg hn, hd, List.cons_append, parseVal]
        rw [if_neg d1, if_neg d2, if_neg d3, if_neg d4, if_neg d5, if_neg d6, if_neg d7]
        rw [← List.cons_append, ← hd, parseNat_natStr n.toNat rest hrest2]
        have he : (((n.toNat : Nat)) : Int) = n := by omega
        simp only [Option.map_some', he]
    | bool b =>
      cases b <;> simp only [dumpsCh, Except.ok.injEq] at h
      · rw [← h]
        show parseVal (f + 1) ('f' :: (['a', 'l', 's', 'e'] ++ rest)) = _
        rw [parseVal, if_neg (by decide), if_neg (by decide), if_neg (by decide),
          if_neg (by decide), if_pos rfl]
        rw [matchLit_self ['a', 'l', 's', 'e'] rest]
        rfl
      · rw [← h]
        show parseVal (f + 1) ('t' :: (['r', 'u', 'e'] ++ rest)) = _
        rw [parseVal, if_neg (by decide), if_neg (by decide), if_neg (by decide), if_pos rfl]
        rw [matchLit_self ['r', 'u', 'e'] rest]
        rfl
    | none =>
      simp only [dumpsCh, Except.ok.injEq] at h
      rw [← h]
      show parseVal (f + 1) ('n' :: (['u', 'l', 'l'] ++ rest)) = _
      rw [parseVal, if_neg (by decide), if_neg (by decide), if_neg (by decide),
        if_neg (by decide), if_neg (by decide), if_pos rfl]
      rw [matchLit_self ['u', 'l', 'l'] rest]
      rfl
    | nan => simp [IsDocB] at hdoc
    | list xs =>
      cases xs with
      | nil =>
        simp only [dumpsCh, Except.ok.injEq] at h
        rw [← h]
        show parseVal (f + 1) ('[' :: (']' :: rest)) = _
        rw [parseVal, if_neg (by decide), if_neg (by decide), if_pos rfl]
        rw [skipWS_not_ws ']' rest (by decide), parseArrBody, if_pos rfl]
      | cons x tl =>
        simp only [dumpsCh] at h
        cases hi : dumpsItems true ind (lvl + 1) (x :: tl) with
        | ok items =>
          rw [hi] at h
          simp only [Except.bind, bind, Except.ok.injEq] at h
          obtain ⟨c0, t0, hitems, hc0ws, hc0b, _⟩ :=
            dumpsItems_head true ind (lvl + 1) x tl items hi
          have hdoc2 : IsDocItemsB (x :: tl) = true := by simpa [IsDocB] using hdoc
          have hfuel2 : pfuelItems (x :: tl) ≤ f := by
            simp only [pfuel] at hfuel; omega
          have hlt : sizeOf (x :: tl) < N := by
            have : sizeOf (x :: tl) < sizeOf (PyVal.list (x :: tl)) := by
              simp only [PyVal.list.sizeOf_spec]; omega
            omega
          rw [← h, List.cons_append, parseVal, if_neg (by decide), if_neg (by decide),
            if_pos rfl]
          rw [List.append_assoc, List.append_assoc, List.append_assoc, List.singleton_append]
          rw [skipWS_newlineInd]
          rw [hitems, List.cons_append, skipWS_not_ws c0 _ hc0ws]
          rw [parseArrBody, if_neg hc0b]
          rw [← List.cons_append, ← hitems]
          have := (IH (sizeOf (x :: tl)) hlt).2.1 ind (lvl + 1) (x :: tl) items le_rfl hdoc2
            (by simp) hi f [] (newlineInd ind lvl ++ ']' :: rest) rest hfuel2
            (skipWS_newlineInd_close ind lvl ']' rest (by decide))
            (noDigitHeadB_newlineInd_close ind lvl ']' rest (by decide))
          rw [this]
          simp
        | error e => rw [hi] at h; simp [Except.bind, bind] at h
    | dict kvs =>
      cases kvs with
      | nil =>
        simp only [dumpsCh, Except.ok.injEq] at h
        rw [← h]
        show parseVal (f + 1) ('\x7b' :: ('\x7d' :: rest)) = _
        rw [parseVal, if_neg (by decide), if_pos rfl]
        rw [skipWS_not_ws '\x7d' rest (by decide), parseObjBody, if_pos rfl]
      | cons e tl =>
        simp only [dumpsCh] at h
        cases hi : dumpsEntries true ind (lvl + 1) (e :: tl) with
        | ok items =>
          rw [hi] at h
          simp only [Except.bind, bind, Except.ok.injEq] at h
          obtain ⟨t0, hitems⟩ := dumpsEntries_head true ind (lvl + 1) e tl items hi
          have hdoc2 : IsDocEntriesB (e :: tl) = true := by
            simp only [IsDocB, Bool.and_eq_true] at hdoc
            exact hdoc.1
          have hnd2 : nodupStrB (((e :: tl)).map keyName) = true := by
            simp only [IsDocB, Bool.and_eq_true] at hdoc
            exact hdoc.2
          have hfuel2 : pfuelEntries (e :: tl) ≤ f := by
            simp only [pfuel] at hfuel; omega
          have hlt : sizeOf (e :: tl) < N := by
            have : sizeOf (e :: tl) < sizeOf (PyVal.dict (e :: tl)) := by
              simp only [PyVal.dict.sizeOf_spec]; omega
            omega
          rw [← h, List.cons_append, parseVal, if_neg (by decide), if_pos rfl]
          rw [List.append_assoc, List.append_assoc, List.append_assoc, List.singleton_append]
          rw [skipWS_newlineInd]
          rw [hitems, List.cons_append, skipWS_not_ws '"' _ (by decide)]
          rw [parseObjBody, if_neg (by decide)]
          rw [← List.cons_append, ← hitems]
          have := (IH (sizeOf (e :: tl)) hlt).2.2 ind (lvl + 1) (e :: tl) items le_rfl hdoc2
            (by simp) hi f [] (newlineInd ind lvl ++ '\x7d' :: rest) rest hfuel2
            (by rfl) (by simpa using hnd2)
            (skipWS_newlineInd_close ind lvl '\x7d' rest (by decide))
            (noDigitHeadB_newlineInd_close ind lvl '\x7d' rest (by decide))
          rw [this]
          simp
        | error e2 => rw [hi] at h; simp [Except.bind, bind] at h
    | set xs => simp [dumpsCh] at h
    | obj cls kind asDict => simp [dumpsCh] at h
  · obtain ⟨f, rfl⟩ : ∃ f, fuel = f + 1 := by
      refine ⟨fuel - 1, ?_⟩
      cases xs with
      | nil => exact absurd rfl hne
      | cons x tl =>
        cases tl <;> · simp only [pfuelItems] at hfuel; have := pfuel_pos x; omega
    cases xs with
    | nil => exact absurd rfl hne
    | cons x tl =>
      have hdx : IsDocB x = true := by
        simp only [IsDocItemsB, Bool.and_eq_true] at hdoc; exact hdoc.1
      have hszx : sizeOf x < N := by
        have hs : sizeOf (x :: tl) = 1 + sizeOf x + sizeOf tl := List.cons.sizeOf_spec x tl
        omega
      cases tl with
      | nil =>
        simp only [dumpsItems] at h
        have hP1 := (IH (sizeOf x) hszx).1 ind lvl x items le_rfl hdx h f T
          (by simp only [pfuelItems] at hfuel; omega) hTd
        rw [parseElems, hP1]
        dsimp only
        rw [hT, parseElemNext, if_neg (by decide), if_pos rfl]
        simp
      | cons y tl2 =>
        simp only [dumpsItems] at h
        cases hx : dumpsCh true ind lvl x with
        | ok cx =>
          rw [hx] at h
          cases hr : dumpsItems true ind lvl (y :: tl2) with
          | ok restI =>
            rw [hr] at h
            simp only [Except.bind, bind, Except.ok.injEq] at h
            obtain ⟨tw, hsep, htw⟩ := itemSep_decomp ind lvl
            have hfx : pfuel x ≤ f := by
              simp only [pfuelItems] at hfuel; omega
            have hnd2 : noDigitHeadB (itemSep ind lvl ++ (restI ++ T)) = true := by
              rw [hsep, List.cons_append]; rfl
            have hP1 := (IH (sizeOf x) hszx).1 ind lvl x cx le_rfl hdx hx f
              (itemSep ind lvl ++ (restI ++ T)) hfx hnd2
            rw [← h]
            simp only [List.append_assoc]
            rw [parseElems, hP1]
            dsimp only
            rw [hsep, List.cons_append, skipWS_not_ws ',' _ (by decide)]
            rw [parseElemNext, if_pos rfl]
            rw [skipWS_ws_append tw htw]
            obtain ⟨c0, t0, hrI, hc0ws, _, _⟩ := dumpsItems_head true ind lvl y tl2 restI hr
            rw [hrI, List.cons_append, skipWS_not_ws c0 _ hc0ws, ← List.cons_append, ← hrI]
            have hszt : sizeOf (y :: tl2) < N := by
              have hs : sizeOf (x :: y :: tl2) = 1 + sizeOf x + sizeOf (y :: tl2) :=
                List.cons.sizeOf_spec x (y :: tl2)
              omega
            have hdt : IsDocItemsB (y :: tl2) = true := by
              simp only [IsDocItemsB, Bool.and_eq_true] at hdoc ⊢
              exact hdoc.2
            have hP2 := (IH (sizeOf (y :: tl2)) hszt).2.1 ind lvl (y :: tl2) restI le_rfl
              hdt (by simp) hr f (x :: acc) T rest
              (by simp only [pfuelItems] at hfuel ⊢; have := pfuel_pos y; omega) hT hTd
            rw [hP2]
            simp
          | error e => rw [hr] at h; simp [Except.bind, bind] at h
        | error e => rw [hx] at h; simp [Except.bind, bind] at h
  · obtain ⟨f, rfl⟩ : ∃ f, fuel = f + 1 := by
      refine ⟨fuel - 1, ?_⟩
      cases kvs with
      | nil => exact absurd rfl hne
      | cons e tl =>
        cases tl <;> · simp only [pfuelEntries] at hfuel; have := pfuel_pos e.2; omega
    cases kvs with
    | nil => exact absurd rfl hne
    | cons e tl =>
      obtain ⟨k, v⟩ := e
      rw [IsDocEntriesB] at hdoc
      simp only [Bool.and_eq_true] at hdoc
      obtain ⟨⟨hk, hv⟩, htl⟩ := hdoc
      obtain ⟨s, rfl⟩ : ∃ s, k = PyVal.str s := by
        rcases k with s | n | b | _ | _ | xs2 | kv2 | x2 | ⟨cls, kind, ad⟩ <;>
          simp [isStrKey] at hk
        exact ⟨_, rfl⟩
      have hvdoc : IsDocB v = true := hv
      have hszv : sizeOf v < N := by
        have hs1 : sizeOf ((PyVal.str s, v) :: tl) = 1 + sizeOf (PyVal.str s, v) + sizeOf tl :=
          List.cons.sizeOf_spec _ _
        have hs2 : sizeOf (PyVal.str s, v) = 1 + sizeOf (PyVal.str s) + sizeOf v :=
          Prod.mk.sizeOf_spec _ _
        omega
      have hmem : memStr s (List.map keyName acc) = false := by
        have hnd2 := hnd
        simp only [List.map_append, List.map_cons, keyName] at hnd2
        exact nodupStrB_middle (List.map keyName acc) s (List.map keyName tl) hnd2
      cases tl with
      | nil =>
        simp only [dumpsEntries, keyStr, Except.bind, bind] at h
        cases hvv : dumpsCh true ind lvl v with
        | ok cv =>
          rw [hvv] at h
          simp only [Except.ok.injEq] at h
          have hfv : pfuel v ≤ f := by
            simp only [pfuelEntries] at hfuel; omega
          have hP1 := (IH (sizeOf v) hszv).1 ind lvl v cv le_rfl hvdoc hvv f T hfv hTd
          rw [← h, List.cons_append, parseMembers, if_pos rfl]
          simp only [List.append_assoc, List.cons_append]
          rw [parseStringBody_roundtrip s (':' :: ' ' :: (cv ++ T))]
          dsimp only
          rw [skipWS_not_ws ':' _ (by decide), parseMemberSep, if_pos rfl]
          rw [skipWS, if_pos (by decide : isJsonWS ' ' = true)]
          obtain ⟨c1, t1, hcv, hc1ws, _, _⟩ := dumpsCh_head true ind lvl v cv hvv
          rw [hcv, List.cons_append, skipWS_not_ws c1 _ hc1ws, ← List.cons_append, ← hcv]
          rw [hP1]
          dsimp only
          rw [hT, parseMemberNext, if_neg (by decide), if_pos rfl]
          rw [dictInsert_append acc s v hacc hmem]
        | error e2 => rw [hvv] at h; simp at h
      | cons e2 tl2 =>
        simp only [dumpsEntries, keyStr, Except.bind, bind] at h
        cases hvv : dumpsCh true ind lvl v with
        | ok cv =>
          rw [hvv] at h
          cases hr : dumpsEntries true ind lvl (e2 :: tl2) with
          | ok restI =>
            rw [hr] at h
            simp only [Except.ok.injEq] at h
            obtain ⟨tw, hsep, htw⟩ := itemSep_decomp ind lvl
            have hfv : pfuel v ≤ f := by
              simp only [pfuelEntries] at hfuel; omega
            have hnd0 : noDigitHeadB (itemSep ind lvl ++ (restI ++ T)) = true := by
              rw [hsep, List.cons_append]; rfl
            have hP1 := (IH (sizeOf v) hszv).1 ind lvl v cv le_rfl hvdoc hvv f
              (itemSep ind lvl ++ (restI ++ T)) hfv hnd0
            rw [← h]
            simp only [List.append_assoc, List.cons_append]
            rw [parseMembers, if_pos rfl]
            rw [parseStringBody_roundtrip s (':' :: ' ' :: (cv ++ (itemSep ind lvl ++ (restI ++ T))))]
            dsimp only
            rw [skipWS_not_ws ':' _ (by decide), parseMemberSep, if_pos rfl]
            rw [skipWS, if_pos (by decide : isJsonWS ' ' = true)]
            obtain ⟨c1, t1, hcv, hc1ws, _, _⟩ := dumpsCh_head true ind lvl v cv hvv
            rw [hcv, List.cons_append, skipWS_not_ws c1 _ hc1ws, ← List.cons_append, ← hcv]
            rw [hP1]
            dsimp only
            rw [hsep, List.cons_append, skipWS_not_ws ',' _ (by decide)]
            rw [parseMemberNext, if_pos rfl]
            rw [skipWS_ws_append tw htw]
            obtain ⟨t0, hrI⟩ := dumpsEntries_head true ind lvl e2 tl2 restI hr
            rw [hrI, List.cons_append, skipWS_not_ws '"' _ (by decide), ← List.cons_append, ← hrI]
            rw [dictInsert_append acc s v hacc hmem]
            have hszt : sizeOf (e2 :: tl2) < N := by
              have hs1 : sizeOf ((PyVal.str s, v) :: e2 :: tl2) =
                  1 + sizeOf (PyVal.str s, v) + sizeOf (e2 :: tl2) := List.cons.sizeOf_spec _ _
              omega
            have hacc2 : allStrKeysB (acc ++ [(PyVal.str s, v)]) = true := by
              rw [allStrKeysB_append, hacc]
              rfl
            have hnd3 : nodupStrB (List.map keyName ((acc ++ [(PyVal.str s, v)]) ++ e2 :: tl2)) = true := by
              rw [List.append_assoc, List.singleton_append]
              exact hnd
            have hft : pfuelEntries (e2 :: tl2) ≤ f := by
              simp only [pfuelEntries] at hfuel; have := pfuel_pos v; omega
            have hP3 := (IH (sizeOf (e2 :: tl2)) hszt).2.2 ind lvl (e2 :: tl2) restI le_rfl
              htl (by simp) hr f (acc ++ [(PyVal.str s, v)]) T rest hft hacc2 hnd3 hT hTd
            rw [hP3]
            simp
          | error e3 => rw [hr] at h; simp at h
        | error e3 => rw [hvv] at h; simp at h

/-- `json.loads` inverts `json.dumps` on every Document, for any indent
setting. -/
theorem jsonLoads_dumps (ind : Option Nat) (d : PyVal) (out : List Char)
    (hdoc : IsDocB d = true) (h : dumpsCh true ind 0 d = .ok out) :
    jsonLoads (String.mk out) = some d := by
  have hfuel : pfuel d ≤ out.length := pfuel_le_dumps true ind 0 d out h
  have hP1 := (parse_dumps_all (sizeOf d)).1 ind 0 d out le_rfl hdoc h (out.length + 1) []
    (by omega) rfl
  rw [List.append_nil] at hP1
  obtain ⟨c, tail, hout, hcws, _, _⟩ := dumpsCh_head true ind 0 d out h
  show (match parseVal (out.length + 1) (skipWS out) with
    | some (v, rest) => if skipWS rest = [] then some v else Option.none
    | Option.none => Option.none) = some d
  rw [hout, skipWS_not_ws c tail hcws, ← hout, hP1]
  rfl

/-- C2: round-trip.  For every Document `d` (mappings with unique
string keys, sequences, and the scalars string, integer, boolean and
null) and every path: when `save_json(path, d)` succeeds (temp name
distinct from the real target path), `load_json(path, default)` on the
resulting filesystem returns exactly `d` — structurally equal,
including mapping key order, which both the serializer and the parser
preserve. -/
theorem save_load_roundtrip (tmp : String) (fs : FS) (filename : String) (d : PyVal)
    (priv : Bool) (default : Option PyVal)
    (hdoc : IsDocB d = true) (htf : tmp ≠ filename) (hfe : filename ≠ "")
    (hok : (save_json jsonDumpsIndent4 tmp noFaults fs filename d priv).1 = .ok ()) :
    load_json false (save_json jsonDumpsIndent4 tmp noFaults fs filename d priv).2
      filename default = .ok d := by
  obtain ⟨s, hs, hfile⟩ := save_json_ok_files jsonDumpsIndent4 tmp noFaults fs filename d
    priv htf hfe hok
  cases hd : dumpsCh true (some 4) 0 d with
  | error e =>
    rw [jsonDumpsIndent4, hd] at hs
    simp [Except.map] at hs
  | ok out =>
    rw [jsonDumpsIndent4, hd] at hs
    simp only [Except.map, Except.ok.injEq] at hs
    subst hs
    simp only [load_json, hfile]
    rw [jsonLoads_dumps (some 4) d out hdoc hd]
    rfl

theorem save_load_roundtrip_witness :
    (save_json jsonDumpsIndent4 "cfg.json.tmp" noFaults emptyFS "cfg.json"
        (.dict [(.str "a", .int 1)]) false).1 = .ok () ∧
    load_json false (save_json jsonDumpsIndent4 "cfg.json.tmp" noFaults emptyFS "cfg.json"
        (.dict [(.str "a", .int 1)]) false).2 "cfg.json" Option.none =
      .ok (.dict [(.str "a", .int 1)]) := by
  have henc : jsonDumpsIndent4 (.dict [(.str "a", .int 1)]) =
      .ok "\x7b\n    \"a\": 1\n\x7d" := by
    simp [jsonDumpsIndent4, dumpsCh, dumpsEntries, keyStr, escChars, escapeChar, newlineInd,
      intStr, natStr, natStrAux, digitChar, Except.bind, bind, Except.map]
  have hok : (save_json jsonDumpsIndent4 "cfg.json.tmp" noFaults emptyFS "cfg.json"
      (.dict [(.str "a", .int 1)]) false).1 = .ok () := by
    simp [save_json, henc, noFaults]
  refine ⟨hok, save_load_roundtrip "cfg.json.tmp" emptyFS "cfg.json" _ false Option.none
    ?_ ?_ ?_ hok⟩
  · simp [IsDocB, IsDocEntriesB, IsDocItemsB, isStrKey, nodupStrB, memStr, keyName]
  · decide
  · decide
